import Mathlib

/-!
Verification of the custom-command pipeline of
`crates/chat-cli/src/cli/chat/custom_commands` (markdown parsing, security
validation, argument substitution, bash-snippet and file-reference inlining,
command discovery/merge).

Strings are modelled as `List Char` (`Str`).  Rust's `str::replace`,
`str::contains`, `str::trim`, `str::starts_with` and the two fixed regular
expressions of the source (`extract_file_references`,
`extract_bash_commands`) as well as the denylist patterns of
`PromptProcessor::DANGEROUS_PATTERNS` are given executable embeddings below.
Filesystem access, subprocess spawning and YAML parsing are abstracted as
oracle function parameters; everything else follows the source line by line.
-/

set_option maxRecDepth 20000

abbrev Str := List Char

/-- Coerce a Lean string literal to the `List Char` representation. -/
def S (s : String) : Str := s.data

/-- ASCII whitespace, the fragment of Rust's `char::is_whitespace` and of the
regex class `\s` exercised by this code base. -/
def wsB (c : Char) : Bool :=
  c == ' ' || c == '\t' || c == '\n' || c == '\r' || c == Char.ofNat 11 || c == Char.ofNat 12

/-- Rust `str::contains` on our list representation: `hay` contains `pat` as a
contiguous substring. -/
def containsSubstr : Str → Str → Bool
  | [], pat => pat.isEmpty
  | c :: t, pat => pat.isPrefixOf (c :: t) || containsSubstr t pat

/-- Fuel-driven core of `str::replace`: replace the leftmost occurrence of
`pat`, continue after the replacement (non-overlapping, left to right).  The
fuel is an upper bound on the number of consumed characters. -/
def strReplaceF (pat rep : Str) : Nat → Str → Str
  | 0, s => s
  | _ + 1, [] => []
  | fuel + 1, c :: t =>
    if pat.isPrefixOf (c :: t) then
      rep ++ strReplaceF pat rep fuel (t.drop (pat.length - 1))
    else
      c :: strReplaceF pat rep fuel t

/-- Rust `str::replace` (all non-overlapping occurrences, left to right).
The empty pattern never occurs in this code base; it is mapped to the
identity. -/
def strReplace (s pat rep : Str) : Str :=
  if pat.isEmpty then s else strReplaceF pat rep s.length s

/-- Rust `str::trim` (both ends, whitespace). -/
def trimF (s : Str) : Str :=
  ((s.dropWhile wsB).reverse.dropWhile wsB).reverse

/-- `str::starts_with`. -/
def startsWithB (s pre : Str) : Bool := pre.isPrefixOf s

/-- `str::ends_with`. -/
def endsWithB (s suf : Str) : Bool := suf.isSuffixOf s

/-! ## A small matcher for the fixed regular expressions of the source

The ten entries of `PromptProcessor::DANGEROUS_PATTERNS` use only literal
characters, the class `\s`, the any-character `.` (which, without the `s`
flag, excludes `'\n'`), and the quantifiers `+` and `*`.  `x+` is compiled
to `x` followed by `x*`. -/

/-- One atomic regex item. -/
inductive RItem
  | lit : Char → RItem
  | dot : RItem
  | ws : RItem
deriving DecidableEq

/-- A regex piece: an item, either required once or Kleene-starred. -/
inductive RPiece
  | once : RItem → RPiece
  | star : RItem → RPiece
deriving DecidableEq

abbrev RPat := List RPiece

def itemMatch : RItem → Char → Bool
  | .lit a, c => a == c
  | .dot, c => !(c == '\n')
  | .ws, c => wsB c

/-- Backtracking matcher: does some prefix of `s` match the whole piece
sequence?  The fuel dominates `s.length + ps.length`. -/
def matchSeqF : Nat → RPat → Str → Bool
  | 0, _, _ => false
  | _ + 1, [], _ => true
  | f + 1, .once i :: ps, s =>
    match s with
    | [] => false
    | c :: t => itemMatch i c && matchSeqF f ps t
  | f + 1, .star i :: ps, s =>
    matchSeqF f ps s ||
      (match s with
       | [] => false
       | c :: t => itemMatch i c && matchSeqF f (.star i :: ps) t)

def matchSeqAt (ps : RPat) (s : Str) : Bool :=
  matchSeqF (s.length + ps.length + 1) ps s

/-- Unanchored search, i.e. `Regex::is_match`: some suffix position starts a
match. -/
def regexSearch (ps : RPat) : Str → Bool
  | [] => matchSeqAt ps []
  | c :: t => matchSeqAt ps (c :: t) || regexSearch ps t

/-- Compact constructors for pattern lists. -/
def rlit (s : String) : RPat := s.data.map (fun c => RPiece.once (RItem.lit c))

def rwsPlus : RPat := [RPiece.once RItem.ws, RPiece.star RItem.ws]

def rwsStar : RPat := [RPiece.star RItem.ws]

def rdotStar : RPat := [RPiece.star RItem.dot]

/-- `PromptProcessor::DANGEROUS_PATTERNS`: each entry paired with its source
text exactly as written in the Rust string literal. -/
def DANGEROUS_PATTERNS : List (Str × RPat) :=
  [ (S "rm\\s+-rf", rlit "rm" ++ rwsPlus ++ rlit "-rf")
  , (S "sudo\\s+rm", rlit "sudo" ++ rwsPlus ++ rlit "rm")
  , (S ">\\s*/dev/null", rlit ">" ++ rwsStar ++ rlit "/dev/null")
  , (S "curl.*\\|\\s*bash", rlit "curl" ++ rdotStar ++ rlit "|" ++ rwsStar ++ rlit "bash")
  , (S "wget.*\\|\\s*bash", rlit "wget" ++ rdotStar ++ rlit "|" ++ rwsStar ++ rlit "bash")
  , (S "eval\\s*\\$", rlit "eval" ++ rwsStar ++ rlit "$")
  , (S "exec\\s+", rlit "exec" ++ rwsPlus)
  , (S "nc\\s+-l", rlit "nc" ++ rwsPlus ++ rlit "-l")
  , (S "python.*-c", rlit "python" ++ rdotStar ++ rlit "-c")
  , (S "perl.*-e", rlit "perl" ++ rdotStar ++ rlit "-e")
  ]

/-! ## `PromptProcessor::extract_file_references`

Regex `(?:^|[\s\n\r>])\s*@(...)`, capturing one or more of the characters
letter, digit, dot, underscore, slash, hyphen, run through `captures_iter`:
a reference must follow the start of the haystack or a whitespace/`>`
boundary character; successive matches are non-overlapping and searched
left to right. -/

/-- The capture class: ASCII letter, digit, dot, underscore, slash, hyphen. -/
def refChar (c : Char) : Bool :=
  c.isAlpha || c.isDigit || c == '.' || c == '_' || c == '/' || c == '-'

/-- The boundary class `[\s\n\r>]`. -/
def bClass (c : Char) : Bool := wsB c || c == '>'

/-- After a satisfied boundary: `\s*` then `@` then a non-empty greedy
capture.  Returns the capture and the rest of the input after the match. -/
def afterBoundary (s : Str) : Option (Str × Str) :=
  match s.dropWhile wsB with
  | [] => none
  | c :: u =>
    if c == '@' then
      let cap := u.takeWhile refChar
      if cap.isEmpty then none else some (cap, u.drop cap.length)
    else none

/-- Scanner for `captures_iter`: `atStart` is true only at offset 0 (the `^`
alternative). -/
def scanRefsF : Nat → Bool → Str → List Str
  | 0, _, _ => []
  | _ + 1, _, [] => []
  | f + 1, atStart, c :: t =>
    let attempt : Option (Str × Str) :=
      if atStart then
        match afterBoundary (c :: t) with
        | some r => some r
        | none => if bClass c then afterBoundary t else none
      else if bClass c then afterBoundary t else none
    match attempt with
    | some (cap, rest) => cap :: scanRefsF f false rest
    | none => scanRefsF f false t

def extract_file_references (content : Str) : List Str :=
  scanRefsF (content.length + 1) true content

/-! ## `PromptProcessor::extract_bash_commands`

Regex ``!`([^`]+)` `` through `captures_iter`. -/

def btick : Char := Char.ofNat 96

def scanBashF : Nat → Str → List Str
  | 0, _ => []
  | _ + 1, [] => []
  | f + 1, c :: t =>
    if c == '!' then
      match t with
      | [] => []
      | d :: u =>
        if d == btick then
          let cap := u.takeWhile (fun x => !(x == btick))
          match u.drop cap.length with
          | e :: v =>
            if e == btick && !cap.isEmpty then cap :: scanBashF f v
            else scanBashF f t
          | [] => scanBashF f t
        else scanBashF f t
    else scanBashF f t

def extract_bash_commands (content : Str) : List Str :=
  scanBashF (content.length + 1) content

/-! ## `shell_words::join` (the `shell_words` crate used for `$ARGUMENTS`) -/

/-- Characters a word may contain without needing quotes. -/
def shellSafeChar (c : Char) : Bool :=
  c.isAlpha || c.isDigit || c == '-' || c == '_' || c == '=' || c == '/' ||
    c == ',' || c == '.' || c == '+'

/-- `shell_words::quote`: empty words become `''`; words with only safe
characters are kept; anything else is single-quoted, with embedded single
quotes escaped. -/
def shellQuote (w : Str) : Str :=
  if w.isEmpty then S "''"
  else if w.all shellSafeChar then w
  else
    '\'' :: (w.flatMap (fun c => if c == '\'' then S "'\\''" else [c])) ++ ['\'']

/-- `shell_words::join`: quote each word, separate by single spaces. -/
def shellJoin (ws : List Str) : Str :=
  List.intercalate [' '] (ws.map shellQuote)

/-! ## `PromptProcessor::substitute_arguments` -/

/-- `format!("${}", i)`. -/
def natStr (n : Nat) : Str := (Nat.repr n).data

def posToken (i : Nat) : Str := '$' :: natStr i

/-- The catch-all placeholder token. -/
def argToken : Str := S "$ARGUMENTS"

/-- The block appended when arguments were supplied but the body has no
catch-all placeholder (the exact `push_str` sequence of the source). -/
def appendArgsBlock (argsString : Str) : Str :=
  S "\n\n---\n\n**Command arguments:**\n" ++
    (S "```\n" ++ argsString ++ S "\n```") ++
    S "\n\nPlease execute the process considering the above arguments."

/-- The positional-replacement loop:
`for (i, arg) in args.iter().enumerate() { result = result.replace(&format!("${}", i + 1), arg) }`. -/
def positionalSubst : Str → Nat → List Str → Str
  | c, _, [] => c
  | c, i, a :: rest => positionalSubst (strReplace c (posToken i) a) (i + 1) rest

/-- `PromptProcessor::substitute_arguments`. -/
def substitute_arguments (content : Str) (args : List Str) : Str :=
  if args.isEmpty then
    let r := strReplace content argToken []
    (List.range' 1 10).foldl (fun acc i => strReplace acc (posToken i) []) r
  else
    let r := positionalSubst content 1 args
    let argsString := shellJoin args
    let hasP := containsSubstr r argToken
    if hasP then strReplace r argToken argsString
    else content ++ appendArgsBlock argsString

/-! ## Security validation (`PromptProcessor`) -/

def dangerMsg (p : Str) : Str :=
  S "Potentially dangerous pattern detected: " ++ p

def unsafeRefMsg (r : Str) : Str :=
  S "Potentially unsafe file reference: " ++ r

/-- An extracted file reference is unsafe when absolute or containing a
parent-directory segment (the check of `check_security_risks` /
`validate_security_with_config`). -/
def unsafeRef (r : Str) : Bool :=
  startsWithB r (S "/") || containsSubstr r (S "..")

/-- `PromptProcessor::check_security_risks`. -/
def check_security_risks (content : Str) : List Str :=
  let risks := DANGEROUS_PATTERNS.foldl
    (fun acc p => if regexSearch p.2 content then acc ++ [dangerMsg p.1] else acc) []
  (extract_file_references content).foldl
    (fun acc r => if unsafeRef r then acc ++ [unsafeRefMsg r] else acc) risks

inductive SecurityValidationLevel
  | none
  | warn
  | error
deriving DecidableEq

/-- `SecurityValidationLevel::default()` is `Error`. -/
def SecurityValidationLevel.default : SecurityValidationLevel := .error

structure SecurityValidationConfig where
  level : SecurityValidationLevel
  ignored_patterns : List Str
deriving DecidableEq

/-- `SecurityValidationConfig::default()`. -/
def SecurityValidationConfig.default : SecurityValidationConfig :=
  { level := .error, ignored_patterns := [] }

structure SecurityValidationResult where
  risks : List Str
  should_warn : Bool
  should_error : Bool
deriving DecidableEq

/-- The ignore test of `validate_security_with_config` for a denylist
pattern: the ignored entry, with spaces normalized to a whitespace class,
occurs in the pattern source; or the pattern source, denormalized, occurs in
the ignored entry. -/
def patternIgnored (pat ign : Str) : Bool :=
  containsSubstr pat (strReplace ign (S " ") (S "\\s+")) ||
    containsSubstr ign (strReplace pat (S "\\s+") (S " "))

/-- `PromptProcessor::validate_security_with_config`. -/
def validate_security_with_config (content : Str) (config : SecurityValidationConfig) :
    SecurityValidationResult :=
  let risks := DANGEROUS_PATTERNS.foldl
    (fun acc p =>
      if config.ignored_patterns.any (fun ign => patternIgnored p.1 ign) then acc
      else if regexSearch p.2 content then acc ++ [dangerMsg p.1] else acc) []
  let risks := (extract_file_references content).foldl
    (fun acc r =>
      if unsafeRef r then
        if config.ignored_patterns.any (fun ign => containsSubstr r ign) then acc
        else acc ++ [unsafeRefMsg r]
      else acc) risks
  { risks := risks
    should_warn := decide (config.level = .warn) && !risks.isEmpty
    should_error := decide (config.level = .error) && !risks.isEmpty }

/-- `SecurityConfigManager::add_ignored_pattern` (the configuration change;
persistence is I/O and out of the model). -/
def add_ignored_pattern (config : SecurityValidationConfig) (pattern : Str) :
    SecurityValidationConfig :=
  if pattern ∈ config.ignored_patterns then config
  else { config with ignored_patterns := config.ignored_patterns ++ [pattern] }

/-! ## `PromptProcessor::validate_bash_permissions` -/

/-- `str::strip_suffix`. -/
def stripSuffix (s suf : Str) : Option Str :=
  if suf.isSuffixOf s then some (s.take (s.length - suf.length)) else none

/-- The `filter_map` step of `validate_bash_permissions`: `"Bash(inner)"`
yields `inner`, a bare `"Bash"` yields `"*"`, anything else is dropped. -/
def bashPermOf (tool : Str) : Option Str :=
  if startsWithB tool (S "Bash(") && endsWithB tool (S ")") then
    some ((tool.drop 5).dropLast)
  else if tool = S "Bash" then some (S "*")
  else Option.none

/-- The per-permission check in the final loop of
`validate_bash_permissions`. -/
def permGrants (command perm : Str) : Bool :=
  match stripSuffix perm (S ":*") with
  | some pre => startsWithB command pre
  | Option.none => perm == command

/-- `PromptProcessor::validate_bash_permissions` (Claude Code format
`Bash(git add:*)`). -/
def validate_bash_permissions (command : Str) (allowed_tools : List Str) : Bool :=
  let bash_permissions : List Str := allowed_tools.filterMap bashPermOf
  if bash_permissions.isEmpty then false
  else if bash_permissions.contains (S "*") then true
  else bash_permissions.any (fun perm => permGrants command perm)

/-- `PromptProcessor::detect_thinking_keywords`. -/
def detect_thinking_keywords (content : Str) : Bool :=
  let keywords := [S "think through", S "reason about", S "analyze carefully",
    S "consider deeply", S "extended thinking", S "step by step",
    S "break down", S "reasoning process"]
  let lower := content.map Char.toLower
  keywords.any (fun k => containsSubstr lower k)

/-! ## Data model (`mod.rs`) and errors (`error.rs`) -/

inductive CommandScope
  | project
  | global
deriving DecidableEq

structure CommandFrontmatter where
  allowed_tools : Option (List Str) := Option.none
  argument_hint : Option Str := Option.none
  description : Option Str := Option.none
  model : Option Str := Option.none
  phase : Option Str := Option.none
  dependencies : Option (List Str) := Option.none
  output_format : Option Str := Option.none
deriving DecidableEq

structure CustomCommand where
  name : Str
  content : Str
  frontmatter : Option CommandFrontmatter
  scope : CommandScope
  file_path : Str
  namespc : Option Str
deriving DecidableEq

/-- The error taxonomy of `CustomCommandError`, restricted to the
constructors reachable from the modelled functions. -/
inductive CCError
  | securityError (command : Str) (message : Str)
  | bashExecutionError (message : Str)
  | timeoutError (command : Str) (ms : Nat)
  | fileReferenceError (file : Str) (message : Str)
  | configError (message : Str)
  | frontmatterParseError (message : Str)
deriving DecidableEq

/-- `PromptProcessor::validate_content_with_config`. -/
def validate_content_with_config (content : Str) (config : SecurityValidationConfig) :
    Except CCError Unit :=
  let r := validate_security_with_config content config
  if r.should_error then
    Except.error (CCError.securityError (S "content_validation")
      (S "Security risks detected: " ++ List.intercalate (S ", ") r.risks))
  else Except.ok ()

/-- `PromptProcessor::validate_content` (default configuration). -/
def validate_content (content : Str) : Except CCError Unit :=
  validate_content_with_config content SecurityValidationConfig.default

/-! ## Executor (`executor.rs`)

Subprocess spawning is abstracted by a total oracle `spawn : Str → Str`
giving the trimmed stdout of a successful run, and filesystem access by an
oracle `fs : Str → Except CCError Str` bundling the existence, size-limit
and read checks of `read_file_reference` that follow its unconditional
path-safety check. -/

inductive SecurityMode
  | strict
  | warning
  | permissive
deriving DecidableEq

structure CustomCommandExecutor where
  bash_timeout_ms : Nat
  security_mode : SecurityMode
deriving DecidableEq

/-- `CustomCommandExecutor::new()`: 30 s timeout, strict mode. -/
def CustomCommandExecutor.new : CustomCommandExecutor :=
  { bash_timeout_ms := 30000, security_mode := .strict }

/-- `CustomCommandExecutor::run_bash_command`: its own unconditional
security check (strict mode rejects any snippet with detected risks), then
the spawned subprocess. -/
def run_bash_command (ex : CustomCommandExecutor) (spawn : Str → Str) (cmd : Str) :
    Except CCError Str :=
  if !(check_security_risks cmd).isEmpty && ex.security_mode = .strict then
    Except.error (CCError.bashExecutionError (S "Dangerous command rejected: " ++ cmd))
  else Except.ok (spawn cmd)

/-- The `!`-backtick pattern rebuilt for replacement:
`format!("!`{}`", bash_cmd)`. -/
def bashMarker (cmd : Str) : Str := '!' :: btick :: (cmd ++ [btick])

/-- The loop body of `execute_bash_commands_with_permissions`, one snippet at
a time in extraction order. -/
def bashLoop (ex : CustomCommandExecutor) (spawn : Str → Str) (allowed_tools : List Str) :
    List Str → Str → Except CCError Str
  | [], result => Except.ok result
  | cmd :: rest, result =>
    if !allowed_tools.isEmpty && !validate_bash_permissions cmd allowed_tools then
      Except.error (CCError.bashExecutionError
        (S "Bash command '" ++ cmd ++ S "' not permitted by allowed-tools"))
    else
      match run_bash_command ex spawn cmd with
      | Except.error e => Except.error e
      | Except.ok output =>
        bashLoop ex spawn allowed_tools rest (strReplace result (bashMarker cmd) output)

/-- `CustomCommandExecutor::execute_bash_commands_with_permissions`. -/
def execute_bash_commands_with_permissions (ex : CustomCommandExecutor) (spawn : Str → Str)
    (content : Str) (allowed_tools : List Str) : Except CCError Str :=
  let bash_commands := extract_bash_commands content
  if bash_commands.isEmpty then Except.ok content
  else bashLoop ex spawn allowed_tools bash_commands content

/-- `CustomCommandExecutor::read_file_reference`: the path-safety check is
unconditional and precedes every filesystem access. -/
def read_file_reference (fs : Str → Except CCError Str) (file_ref : Str) :
    Except CCError Str :=
  if containsSubstr file_ref (S "..") || startsWithB file_ref (S "/") then
    Except.error (CCError.securityError (S "file_reference")
      (S "Unsafe file reference: " ++ file_ref))
  else fs file_ref

/-- The loop body of `resolve_file_references`. -/
def fileLoop (fs : Str → Except CCError Str) : List Str → Str → Except CCError Str
  | [], result => Except.ok result
  | ref :: rest, result =>
    match read_file_reference fs ref with
    | Except.error e => Except.error e
    | Except.ok fileContent =>
      fileLoop fs rest
        (strReplace result ('@' :: ref) (S "```\n" ++ fileContent ++ S "\n```"))

/-- `CustomCommandExecutor::resolve_file_references`. -/
def resolve_file_references (fs : Str → Except CCError Str) (content : Str) :
    Except CCError Str :=
  let file_refs := extract_file_references content
  if file_refs.isEmpty then Except.ok content
  else fileLoop fs file_refs content

/-- `CustomCommandExecutor::security_check_with_config`. -/
def security_check_with_config (command : CustomCommand) (config : SecurityValidationConfig) :
    Except CCError Unit :=
  validate_content_with_config command.content config

/-- The `allowed_tools` slice the executor passes to the bash loop:
`command.frontmatter.as_ref().and_then(|fm| fm.allowed_tools.as_ref()).unwrap_or(&[])`. -/
def commandAllowedTools (command : CustomCommand) : List Str :=
  (command.frontmatter.bind (fun fm => fm.allowed_tools)).getD []

/-- `CustomCommandExecutor::execute_with_security`: validation, argument
substitution, bash inlining, file inlining, thinking-mode marker. -/
def execute_with_security (ex : CustomCommandExecutor) (spawn : Str → Str)
    (fs : Str → Except CCError Str) (command : CustomCommand) (args : List Str)
    (security_config : SecurityValidationConfig) : Except CCError Str :=
  match security_check_with_config command security_config with
  | Except.error e => Except.error e
  | Except.ok _ =>
    let processed := substitute_arguments command.content args
    match execute_bash_commands_with_permissions ex spawn processed
        (commandAllowedTools command) with
    | Except.error e => Except.error e
    | Except.ok processed =>
      match resolve_file_references fs processed with
      | Except.error e => Except.error e
      | Except.ok processed =>
        if detect_thinking_keywords processed then
          Except.ok (S "🤔 **Extended Thinking Mode Activated**\n\n" ++ processed)
        else Except.ok processed

/-! ## `MarkdownParser` (parser.rs)

The frontmatter regex is `(?s)^---\s*\n(.*?)\n---\s*\n(.*)$`.  The matcher
below reproduces the backtracking priorities of the regex engine: the
opening `\s*` is greedy (within the whitespace run following `---` it ends
at a newline, longest first), group 1 is lazy (the earliest closing
delimiter wins), the closing `\s*` is greedy again, and the trailing
`(.*)$` under `(?s)` always extends to the end of the haystack. -/

/-- Index of the last `'\n'` in a list, if any. -/
def lastNl : Str → Option Nat
  | [] => Option.none
  | c :: t =>
    match lastNl t with
    | some k => some (k + 1)
    | Option.none => if c == '\n' then some 0 else Option.none

/-- The `\s*\n` step of the closing delimiter: within the maximal whitespace
run of `t`, consume up to and including the last newline; the remainder is
group 2. -/
def afterClose (t : Str) : Option Str :=
  match lastNl (t.takeWhile wsB) with
  | some k => some (t.drop (k + 1))
  | Option.none => Option.none

/-- Search for the earliest `\n---\s*\n` in `rem`, returning (group 1,
group 2); group 1 grows lazily one character at a time. -/
def closeSearchF : Nat → Str → Option (Str × Str)
  | 0, _ => Option.none
  | _ + 1, [] => Option.none
  | f + 1, c :: t =>
    if (S "\n---").isPrefixOf (c :: t) then
      match afterClose ((c :: t).drop 4) with
      | some g2 => some ([], g2)
      | Option.none =>
        match closeSearchF f t with
        | some (g1, g2) => some (c :: g1, g2)
        | Option.none => Option.none
    else
      match closeSearchF f t with
      | some (g1, g2) => some (c :: g1, g2)
      | Option.none => Option.none

def closeSearch (rem : Str) : Option (Str × Str) :=
  closeSearchF (rem.length + 1) rem

/-- Candidate endpoints for the opening `\s*\n`: the positions of `'\n'`
within the maximal whitespace run, in decreasing (greedy-first) order. -/
def nlCandidates (r : Str) : List Nat :=
  let w := r.takeWhile wsB
  ((List.range w.length).filter (fun j => w.getD j ' ' == '\n')).reverse

def tryOpens (r : Str) : List Nat → Option (Str × Str)
  | [] => Option.none
  | j :: rest =>
    match closeSearch (r.drop (j + 1)) with
    | some res => some res
    | Option.none => tryOpens r rest

/-- Full-match attempt of the frontmatter regex on the trimmed document:
returns (group 1, group 2) of the first match, if any. -/
def fmSplit (c : Str) : Option (Str × Str) :=
  if (S "---").isPrefixOf c then tryOpens (c.drop 3) (nlCandidates (c.drop 3))
  else Option.none

structure ParsedMarkdown where
  frontmatter : Option CommandFrontmatter
  content : Str
  raw_content : Str
deriving DecidableEq

/-- `MarkdownParser::parse`.  YAML deserialization (`serde_yaml::from_str`)
is abstracted by the oracle `yaml`; an error from it becomes a
`frontmatter_parse_error`. -/
def parseMarkdown (yaml : Str → Except Str CommandFrontmatter) (content : Str) :
    Except CCError ParsedMarkdown :=
  let c := trimF content
  match fmSplit c with
  | some (g1, g2) =>
    let markdownContent := trimF g2
    if (trimF g1).isEmpty then
      Except.ok { frontmatter := Option.none, content := markdownContent, raw_content := c }
    else
      match yaml g1 with
      | Except.ok fm =>
        Except.ok { frontmatter := some fm, content := markdownContent, raw_content := c }
      | Except.error e => Except.error (CCError.frontmatterParseError e)
  | Option.none =>
    Except.ok { frontmatter := Option.none, content := c, raw_content := c }

/-! ## Loader merge (`loader.rs`, `load_all_commands`)

The per-directory `HashMap`s are modelled as association lists in arbitrary
iteration order; `HashMap::insert` replaces an existing binding. -/

/-- `HashMap` lookup, on the association-list model. -/
def lookupCmd : List (Str × CustomCommand) → Str → Option CustomCommand
  | [], _ => Option.none
  | p :: t, k => if p.1 == k then some p.2 else lookupCmd t k

/-- `HashMap::contains_key`. -/
def containsKey (m : List (Str × CustomCommand)) (k : Str) : Bool :=
  (lookupCmd m k).isSome

/-- `HashMap::insert`: replaces the binding of an existing key. -/
def insertCmd : List (Str × CustomCommand) → Str → CustomCommand →
    List (Str × CustomCommand)
  | [], k, c => [(k, c)]
  | p :: t, k, c => if p.1 == k then (k, c) :: t else p :: insertCmd t k c

/-- One iteration of the merge loop: insert unless the name is already
present with the incoming command not Project-scoped. -/
def mergeStep (m : List (Str × CustomCommand)) (p : Str × CustomCommand) :
    List (Str × CustomCommand) :=
  if !containsKey m p.1 || decide (p.2.scope = CommandScope.project) then
    insertCmd m p.1 p.2
  else m

/-- The merge of `load_all_commands` over the per-directory results, in the
order the directories and their entries are iterated. -/
def load_all_commands_merge (results : List (List (Str × CustomCommand))) :
    List (Str × CustomCommand) :=
  results.foldl (fun m dir => dir.foldl mergeStep m) []

/-! ## Spec-side definitions (used to state the claims) -/

/-- All placeholder tokens: the catch-all and `$1` … `$10`. -/
def placeholderTokens : List Str := argToken :: (List.range' 1 10).map posToken

/-- Modelled from the spec: with no supplied arguments, every placeholder
resolves to the empty string and nothing is appended. -/
def removeAllPlaceholders (content : Str) : Str :=
  placeholderTokens.foldl (fun acc t => strReplace acc t []) content

/-- The grant forms enumerated by the claim: bare `Bash`, prefix grant
`Bash(prefix:*)`, exact grant `Bash(cmd)`. -/
def claimBashGrant (tool command : Str) : Prop :=
  tool = S "Bash" ∨
    (∃ pre, tool = S "Bash(" ++ pre ++ S ":*)" ∧ pre <+: command) ∨
    tool = S "Bash(" ++ command ++ S ")"

/-- The amended grant forms: additionally `Bash(*)` is a grant-all entry. -/
def specBashGrant (tool command : Str) : Prop :=
  tool = S "Bash" ∨ tool = S "Bash(*)" ∨
    (∃ pre, tool = S "Bash(" ++ pre ++ S ":*)" ∧ pre <+: command) ∨
    tool = S "Bash(" ++ command ++ S ")"

/-- Every snippet inlined: each marker replaced by the subprocess output, in
extraction order. -/
def inlineAll (spawn : Str → Str) (content : Str) : Str :=
  (extract_bash_commands content).foldl
    (fun res cmd => strReplace res (bashMarker cmd) (spawn cmd)) content

/-- Modelled from the spec: the document (already trimmed) carries a
well-formed leading delimited metadata block — a leading `---` line, block
content, a closing `---` line — in the sense of the frontmatter pattern:
some decomposition with whitespace runs after the two delimiters. -/
def hasFrontmatterBlock (c : Str) : Prop :=
  ∃ w g1 w2 g2,
    (∀ x ∈ w, wsB x = true) ∧ (∀ x ∈ w2, wsB x = true) ∧
      c = S "---" ++ w ++ ('\n' :: g1) ++ S "\n---" ++ w2 ++ ('\n' :: g2)

/-! # Theorems -/

theorem containsSubstr_nil (pat : Str) : containsSubstr [] pat = pat.isEmpty := rfl

theorem containsSubstr_cons (c : Char) (t pat : Str) :
    containsSubstr (c :: t) pat = (pat.isPrefixOf (c :: t) || containsSubstr t pat) := rfl

/-- A pattern that does not occur is not replaced (fuelled core). -/
theorem strReplaceF_of_not_contains (pat rep : Str) :
    ∀ (fuel : Nat) (s : Str), containsSubstr s pat = false → strReplaceF pat rep fuel s = s := by
  intro fuel
  induction fuel with
  | zero => intro s _; rfl
  | succ f ih =>
    intro s h
    cases s with
    | nil => rfl
    | cons c t =>
      rw [containsSubstr_cons, Bool.or_eq_false_iff] at h
      simp only [strReplaceF, h.1, if_neg]
      simp [ih t h.2]

/-- A pattern that does not occur is not replaced. -/
theorem strReplace_of_not_contains (s pat rep : Str) (h : containsSubstr s pat = false) :
    strReplace s pat rep = s := by
  unfold strReplace
  split
  · rfl
  · exact strReplaceF_of_not_contains pat rep s.length s h

/-- Replacing by the empty string never lengthens the string (fuelled core). -/
theorem strReplaceF_nil_length_le (pat : Str) :
    ∀ (fuel : Nat) (s : Str), (strReplaceF pat [] fuel s).length ≤ s.length := by
  intro fuel
  induction fuel with
  | zero => intro s; exact Nat.le_refl _
  | succ f ih =>
    intro s
    cases s with
    | nil => simp [strReplaceF]
    | cons c t =>
      by_cases h : pat.isPrefixOf (c :: t)
      · simp only [strReplaceF, h, if_pos, List.nil_append]
        calc (strReplaceF pat [] f (t.drop (pat.length - 1))).length
            ≤ (t.drop (pat.length - 1)).length := ih _
          _ ≤ t.length := by simp [List.length_drop]
          _ ≤ (c :: t).length := by simp
      · simp only [strReplaceF, h, if_neg, List.length_cons]
        exact Nat.succ_le_succ (ih t)

/-- Replacing by the empty string never lengthens the string. -/
theorem strReplace_nil_length_le (s pat : Str) :
    (strReplace s pat []).length ≤ s.length := by
  unfold strReplace
  split
  · exact Nat.le_refl _
  · exact strReplaceF_nil_length_le pat s.length s


/-! ## Helper lemmas -/

/-- A conditional-push `foldl` is an append of a filtered map. -/
theorem foldl_pushIf {α : Type} (f : List Str → α → List Str) (C : α → Bool) (m : α → Str)
    (hf : ∀ a p, f a p = if C p then a ++ [m p] else a) :
    ∀ (l : List α) (acc : List Str), l.foldl f acc = acc ++ (l.filter C).map m := by
  intro l
  induction l with
  | nil => intro acc; simp
  | cons p t ih =>
    intro acc
    rw [List.foldl_cons, hf, List.filter_cons]
    by_cases h : C p <;> simp [h, ih]

/-- The findings of `check_security_risks` are exactly the matching denylist
patterns followed by the unsafe file references. -/
theorem check_security_risks_char (content : Str) :
    check_security_risks content =
      (DANGEROUS_PATTERNS.filter (fun p => regexSearch p.2 content)).map
          (fun p => dangerMsg p.1) ++
        ((extract_file_references content).filter unsafeRef).map unsafeRefMsg := by
  unfold check_security_risks
  rw [foldl_pushIf
      (fun acc (p : Str × RPat) =>
        if regexSearch p.2 content then acc ++ [dangerMsg p.1] else acc)
      (fun p => regexSearch p.2 content) (fun p => dangerMsg p.1) (fun a p => rfl),
    foldl_pushIf
      (fun acc r => if unsafeRef r then acc ++ [unsafeRefMsg r] else acc)
      unsafeRef unsafeRefMsg (fun a p => rfl)]
  simp

/-- The findings of `validate_security_with_config` are exactly the matching
non-exempted denylist patterns followed by the non-exempted unsafe file
references. -/
theorem validate_risks_char (content : Str) (config : SecurityValidationConfig) :
    (validate_security_with_config content config).risks =
      (DANGEROUS_PATTERNS.filter (fun p =>
          !(config.ignored_patterns.any (fun ign => patternIgnored p.1 ign)) &&
            regexSearch p.2 content)).map (fun p => dangerMsg p.1) ++
        ((extract_file_references content).filter (fun r =>
            unsafeRef r &&
              !(config.ignored_patterns.any (fun ign => containsSubstr r ign)))).map
          unsafeRefMsg := by
  have h1 : (fun (a : List Str) (p : Str × RPat) =>
      if config.ignored_patterns.any (fun ign => patternIgnored p.1 ign) then a
      else if regexSearch p.2 content then a ++ [dangerMsg p.1] else a) =
      (fun a p =>
        if (!(config.ignored_patterns.any (fun ign => patternIgnored p.1 ign)) &&
            regexSearch p.2 content) then a ++ [dangerMsg p.1] else a) := by
    funext a p
    by_cases hA : config.ignored_patterns.any (fun ign => patternIgnored p.1 ign) <;>
      by_cases hB : regexSearch p.2 content <;> simp [hA, hB]
  have h2 : (fun (a : List Str) (r : Str) =>
      if unsafeRef r then
        if config.ignored_patterns.any (fun ign => containsSubstr r ign) then a
        else a ++ [unsafeRefMsg r]
      else a) =
      (fun a r =>
        if (unsafeRef r &&
            !(config.ignored_patterns.any (fun ign => containsSubstr r ign))) then
          a ++ [unsafeRefMsg r] else a) := by
    funext a r
    by_cases hA : unsafeRef r <;>
      by_cases hB : config.ignored_patterns.any (fun ign => containsSubstr r ign) <;>
        simp [hA, hB]
  unfold validate_security_with_config
  simp only [h1, h2]
  rw [foldl_pushIf
      (fun acc (p : Str × RPat) =>
        if (!(config.ignored_patterns.any (fun ign => patternIgnored p.1 ign)) &&
            regexSearch p.2 content) then acc ++ [dangerMsg p.1] else acc)
      _ (fun p : Str × RPat => dangerMsg p.1) (fun a p => rfl),
    foldl_pushIf
      (fun acc r =>
        if (unsafeRef r &&
            !(config.ignored_patterns.any (fun ign => containsSubstr r ign))) then
          acc ++ [unsafeRefMsg r] else acc)
      _ unsafeRefMsg (fun a p => rfl)]
  simp

/-- The flag computation of `validate_security_with_config`. -/
theorem validate_flags (content : Str) (config : SecurityValidationConfig) :
    (validate_security_with_config content config).should_warn =
        (decide (config.level = .warn) &&
          !(validate_security_with_config content config).risks.isEmpty) ∧
      (validate_security_with_config content config).should_error =
        (decide (config.level = .error) &&
          !(validate_security_with_config content config).risks.isEmpty) := by
  constructor <;> rfl

/-- The findings do not depend on the policy level. -/
theorem validate_risks_level_independent (content : Str) (l₁ l₂ : SecurityValidationLevel)
    (ign : List Str) :
    (validate_security_with_config content { level := l₁, ignored_patterns := ign }).risks =
      (validate_security_with_config content { level := l₂, ignored_patterns := ign }).risks := by
  rw [validate_risks_char, validate_risks_char]

/-- With no exemptions configured, a text matching some denylist pattern has
a non-empty findings list. -/
theorem risks_ne_nil_of_match (content : Str) (lvl : SecurityValidationLevel)
    (h : DANGEROUS_PATTERNS.any (fun p => regexSearch p.2 content) = true) :
    (validate_security_with_config content
        { level := lvl, ignored_patterns := [] }).risks ≠ [] := by
  rw [validate_risks_char]
  rcases List.any_eq_true.mp h with ⟨p, hp, hsearch⟩
  have hmem : p ∈ DANGEROUS_PATTERNS.filter (fun p =>
      !(List.any [] fun ign => patternIgnored p.1 ign) && regexSearch p.2 content) :=
    List.mem_filter.mpr ⟨hp, by simp [hsearch]⟩
  intro hc
  rcases List.append_eq_nil.mp hc with ⟨h1, _⟩
  rw [List.map_eq_nil] at h1
  rw [h1] at hmem
  exact List.not_mem_nil p hmem

/-- C2: for every text matching at least one denylisted dangerous pattern
(with no exemptions configured), `validate_security_with_config` sets
`should_error` exactly at level `Error`, `should_warn` exactly at level
`Warn`, and at level `None` sets neither flag while the findings list is
still non-empty. -/
theorem C2_validate_security_levels (content : Str)
    (h : DANGEROUS_PATTERNS.any (fun p => regexSearch p.2 content) = true) :
    ((validate_security_with_config content
        { level := .error, ignored_patterns := [] }).should_error = true ∧
      (validate_security_with_config content
        { level := .error, ignored_patterns := [] }).should_warn = false) ∧
    ((validate_security_with_config content
        { level := .warn, ignored_patterns := [] }).should_warn = true ∧
      (validate_security_with_config content
        { level := .warn, ignored_patterns := [] }).should_error = false) ∧
    ((validate_security_with_config content
        { level := .none, ignored_patterns := [] }).should_error = false ∧
      (validate_security_with_config content
        { level := .none, ignored_patterns := [] }).should_warn = false ∧
      (validate_security_with_config content
        { level := .none, ignored_patterns := [] }).risks ≠ []) := by
  have hE := risks_ne_nil_of_match content .error h
  have hW := risks_ne_nil_of_match content .warn h
  have hEe : (validate_security_with_config content
      { level := .error, ignored_patterns := [] }).risks.isEmpty = false := by
    rw [List.isEmpty_eq_false]; exact hE
  have hWe : (validate_security_with_config content
      { level := .warn, ignored_patterns := [] }).risks.isEmpty = false := by
    rw [List.isEmpty_eq_false]; exact hW
  refine ⟨⟨?_, ?_⟩, ⟨?_, ?_⟩, ?_, ?_, risks_ne_nil_of_match content .none h⟩
  · rw [(validate_flags content _).2, hEe]; rfl
  · rw [(validate_flags content _).1, hEe]; rfl
  · rw [(validate_flags content _).1, hWe]; rfl
  · rw [(validate_flags content _).2, hWe]; rfl
  · rw [(validate_flags content _).2]; rfl
  · rw [(validate_flags content _).1]; rfl

/-- C2 witness: `"rm -rf /tmp/x"` matches the first denylist pattern and the
three flag configurations behave as stated. -/
theorem C2_witness :
    (DANGEROUS_PATTERNS.any (fun p => regexSearch p.2 (S "rm -rf /tmp/x")) = true) ∧
    ((validate_security_with_config (S "rm -rf /tmp/x")
        { level := .error, ignored_patterns := [] }).should_error = true) ∧
    ((validate_security_with_config (S "rm -rf /tmp/x")
        { level := .warn, ignored_patterns := [] }).should_warn = true) ∧
    ((validate_security_with_config (S "rm -rf /tmp/x")
        { level := .none, ignored_patterns := [] }).should_error = false ∧
      (validate_security_with_config (S "rm -rf /tmp/x")
        { level := .none, ignored_patterns := [] }).risks ≠ []) := by
  have h : DANGEROUS_PATTERNS.any (fun p => regexSearch p.2 (S "rm -rf /tmp/x")) = true := by
    decide
  have := C2_validate_security_levels (S "rm -rf /tmp/x") h
  exact ⟨h, this.1.1, this.2.1.1, this.2.2.1, this.2.2.2.2⟩

/-- Removing placeholder tokens by a fold never lengthens the string. -/
theorem foldl_strReplace_nil_length_le :
    ∀ (toks : List Str) (acc : Str),
      (toks.foldl (fun a t => strReplace a t []) acc).length ≤ acc.length := by
  intro toks
  induction toks with
  | nil => intro acc; exact Nat.le_refl _
  | cons t ts ih =>
    intro acc
    calc (List.foldl (fun a t => strReplace a t []) (strReplace acc t []) ts).length
        ≤ (strReplace acc t []).length := ih _
      _ ≤ acc.length := strReplace_nil_length_le acc t

/-- C6: with an empty argument list, `substitute_arguments` replaces every
placeholder — the catch-all and the ten positional tokens — by the empty
string, appending nothing: it equals the spec-side placeholder removal and
never lengthens the body. -/
theorem C6_empty_args_removes_placeholders (content : Str) :
    substitute_arguments content [] = removeAllPlaceholders content ∧
      (substitute_arguments content []).length ≤ content.length := by
  have heq : substitute_arguments content [] = removeAllPlaceholders content := by
    unfold substitute_arguments removeAllPlaceholders placeholderTokens
    rw [List.foldl_cons, List.foldl_map]
    rfl
  refine ⟨heq, ?_⟩
  rw [heq]
  unfold removeAllPlaceholders
  exact foldl_strReplace_nil_length_le placeholderTokens content

/-- C1 (failing-input evaluation): on the body of the repository's own
`test_positional_arguments` test, `substitute_arguments` leaves `$1`, `$2`,
`$3` in place — the positional substitution is discarded because the body
has no `$ARGUMENTS` — and appends an arguments block instead of producing
the substituted text the test asserts. -/
theorem C1_positional_substitution_discarded :
    substitute_arguments (S "Review PR #$1 with priority $2 and assign to $3")
        [S "456", S "high", S "alice"] =
      S "Review PR #$1 with priority $2 and assign to $3" ++
        appendArgsBlock (S "456 high alice") ∧
    substitute_arguments (S "Review PR #$1 with priority $2 and assign to $3")
        [S "456", S "high", S "alice"] ≠
      S "Review PR #456 with priority high and assign to alice" ∧
    containsSubstr
      (substitute_arguments (S "Review PR #$1 with priority $2 and assign to $3")
        [S "456", S "high", S "alice"]) (S "$1") = true := by
  refine ⟨by decide, by decide, by decide⟩

/-- C5 counterexample: the claim fails on both of its branches.  With empty
arguments a body `"$1"` is changed (the placeholder is erased), and with a
non-empty argument list whose entry re-introduces the catch-all token the
output does not start with the original body. -/
theorem C5_counterexample :
    (substitute_arguments (S "$1") [] = [] ∧ (S "$1" : Str) ≠ []) ∧
    (substitute_arguments (S "$1") [S "$ARGUMENTS"] = S "'$ARGUMENTS'" ∧
      startsWithB (substitute_arguments (S "$1") [S "$ARGUMENTS"]) (S "$1") = false) := by
  refine ⟨⟨by decide, by decide⟩, by decide, by decide⟩

/-- A fold of token removals over tokens none of which occur leaves the
string unchanged. -/
theorem foldl_strReplace_of_not_contains :
    ∀ (toks : List Nat) (acc : Str),
      (∀ i ∈ toks, containsSubstr acc (posToken i) = false) →
      toks.foldl (fun a i => strReplace a (posToken i) []) acc = acc := by
  intro toks
  induction toks with
  | nil => intro acc _; rfl
  | cons t ts ih =>
    intro acc h
    rw [List.foldl_cons, strReplace_of_not_contains acc (posToken t) []
      (h t (List.mem_cons_self t ts))]
    exact ih acc (fun i hi => h i (List.mem_cons_of_mem t hi))

/-- C5 (amended): for a body without the catch-all token, if the argument
list is non-empty and positional substitution does not manufacture the
catch-all token, the output is exactly the original body followed by the
delimited arguments block holding the shell-escaped join; if the argument
list is empty and the body contains no placeholder token at all, the output
is the body unchanged. -/
theorem C5_body_prefix_and_args_block (content : Str) (args : List Str)
    (hnoArg : containsSubstr content argToken = false) :
    (args ≠ [] →
      containsSubstr (positionalSubst content 1 args) argToken = false →
      substitute_arguments content args =
        content ++ appendArgsBlock (shellJoin args)) ∧
    (args = [] →
      (∀ t ∈ placeholderTokens, containsSubstr content t = false) →
      substitute_arguments content args = content) := by
  constructor
  · intro hne hnoSub
    unfold substitute_arguments
    rw [if_neg (by simpa using hne)]
    simp only [hnoSub]
    rfl
  · intro hempty htoks
    subst hempty
    unfold substitute_arguments
    rw [if_pos (by rfl : ([] : List Str).isEmpty = true)]
    have h0 : strReplace content argToken [] = content :=
      strReplace_of_not_contains content argToken []
        (htoks argToken (List.mem_cons_self _ _))
    rw [h0]
    exact foldl_strReplace_of_not_contains (List.range' 1 10) content
      (fun i hi => htoks (posToken i)
        (List.mem_cons_of_mem _ (List.mem_map_of_mem posToken hi)))

/-- C5 witness: a concrete body without placeholders, once with two
arguments (block appended after the unchanged body) and once with none
(output unchanged). -/
theorem C5_witness :
    substitute_arguments (S "Do the thing") [S "a b", S "c"] =
      S "Do the thing" ++ appendArgsBlock (shellJoin [S "a b", S "c"]) ∧
    substitute_arguments (S "Do the thing") [] = S "Do the thing" := by
  constructor
  · exact (C5_body_prefix_and_args_block (S "Do the thing") [S "a b", S "c"]
      (by decide)).1 (by decide) (by decide)
  · exact (C5_body_prefix_and_args_block (S "Do the thing") []
      (by decide)).2 rfl (by decide)

/-- The added exemption pattern is in the resulting configuration. -/
theorem mem_add_ignored_pattern (config : SecurityValidationConfig) (pattern : Str) :
    pattern ∈ (add_ignored_pattern config pattern).ignored_patterns := by
  unfold add_ignored_pattern
  by_cases h : pattern ∈ config.ignored_patterns
  · rw [if_pos h]; exact h
  · rw [if_neg h]; simp

/-- A pattern finding and a file-reference finding never coincide (their
fixed prefixes differ at index 12). -/
theorem unsafeRefMsg_ne_dangerMsg (x y : Str) : unsafeRefMsg x ≠ dangerMsg y := by
  intro h
  unfold unsafeRefMsg dangerMsg at h
  have h12 := congrArg (fun l => l.getD 12 ' ') h
  rw [show ((S "Potentially unsafe file reference: " ++ x).getD 12 ' ' =
        (S "Potentially dangerous pattern detected: " ++ y).getD 12 ' ') =
      ((S "Potentially unsafe file reference: ").getD 12 ' ' =
        (S "Potentially dangerous pattern detected: ").getD 12 ' ') from by
    rw [List.getD_append _ _ _ _ (by decide), List.getD_append _ _ _ _ (by decide)]] at h12
  exact absurd h12 (by decide)

/-- C7: after adding an exemption entry that textually matches a denylist
pattern (in the whitespace-normalized sense of the code), validating any
content under the resulting configuration yields findings that no longer
contain that pattern's finding. -/
theorem C7_exemption_suppresses_finding (content : Str) (config : SecurityValidationConfig)
    (ign : Str) (p : Str × RPat) (hp : p ∈ DANGEROUS_PATTERNS)
    (hign : patternIgnored p.1 ign = true) :
    dangerMsg p.1 ∉
      (validate_security_with_config content (add_ignored_pattern config ign)).risks := by
  intro hmem
  rw [validate_risks_char] at hmem
  rcases List.mem_append.mp hmem with hA | hB
  · rcases List.mem_map.mp hA with ⟨q, hq, heq⟩
    have hq1 : q.1 = p.1 := by
      unfold dangerMsg at heq
      exact List.append_cancel_left heq
    have hcond := (List.mem_filter.mp hq).2
    rw [Bool.and_eq_true, Bool.not_eq_true'] at hcond
    have hany : (add_ignored_pattern config ign).ignored_patterns.any
        (fun i => patternIgnored q.1 i) = true :=
      List.any_eq_true.mpr ⟨ign, mem_add_ignored_pattern config ign, by rw [hq1]; exact hign⟩
    rw [hany] at hcond
    exact Bool.noConfusion hcond.1
  · rcases List.mem_map.mp hB with ⟨r, _, heq⟩
    exact unsafeRefMsg_ne_dangerMsg r p.1 heq

/-- C7 witness: exempting `"rm -rf"` suppresses the `rm\s+-rf` finding that
the default configuration reports for `"Execute rm -rf /tmp"`. -/
theorem C7_witness :
    dangerMsg (S "rm\\s+-rf") ∈
      (validate_security_with_config (S "Execute rm -rf /tmp")
        SecurityValidationConfig.default).risks ∧
    dangerMsg (S "rm\\s+-rf") ∉
      (validate_security_with_config (S "Execute rm -rf /tmp")
        (add_ignored_pattern SecurityValidationConfig.default (S "rm -rf"))).risks := by
  constructor
  · decide
  · exact C7_exemption_suppresses_finding (S "Execute rm -rf /tmp")
      SecurityValidationConfig.default (S "rm -rf")
      (S "rm\\s+-rf", rlit "rm" ++ rwsPlus ++ rlit "-rf")
      (by decide) (by decide)

/-- Looking up the freshly inserted key yields the inserted command. -/
theorem lookupCmd_insertCmd_self (m : List (Str × CustomCommand)) (k : Str)
    (c : CustomCommand) : lookupCmd (insertCmd m k c) k = some c := by
  induction m with
  | nil => simp [insertCmd, lookupCmd]
  | cons p t ih =>
    by_cases h : p.1 == k
    · simp [insertCmd, h, lookupCmd]
    · simp [insertCmd, h, lookupCmd, ih]

/-- Inserting one key leaves the other keys' bindings unchanged. -/
theorem lookupCmd_insertCmd_other (m : List (Str × CustomCommand)) (k k' : Str)
    (c : CustomCommand) (hne : ¬(k' = k)) :
    lookupCmd (insertCmd m k c) k' = lookupCmd m k' := by
  induction m with
  | nil =>
    simp only [insertCmd, lookupCmd]
    rw [if_neg (by simpa using fun h : k = k' => hne h.symm)]
  | cons p t ih =>
    by_cases h : p.1 == k
    · have hp : p.1 = k := by simpa using h
      simp only [insertCmd, h, if_pos]
      simp only [lookupCmd]
      rw [if_neg (by simpa using fun hh : k = k' => hne hh.symm),
        if_neg (by rw [hp]; simpa using fun hh : k = k' => hne hh.symm)]
    · simp only [insertCmd, h, if_neg, Bool.false_eq_true, not_false_iff, lookupCmd]
      by_cases h' : p.1 == k'
      · simp [h']
      · simp [h', ih]

/-- The invariant of the merge loop: the map binds `name` to a
Project-scoped command. -/
def boundToProject (m : List (Str × CustomCommand)) (name : Str) : Prop :=
  ∃ c, lookupCmd m name = some c ∧ c.scope = CommandScope.project

/-- One merge iteration preserves the Project binding: an existing binding
can only be overwritten by a Project-scoped command. -/
theorem mergeStep_preserves (m : List (Str × CustomCommand)) (name : Str)
    (p : Str × CustomCommand) (h : boundToProject m name) :
    boundToProject (mergeStep m p) name := by
  rcases h with ⟨c, hc, hscope⟩
  unfold mergeStep
  by_cases hk : p.1 = name
  · subst hk
    have hck : containsKey m p.1 = true := by
      unfold containsKey
      rw [hc]
      rfl
    by_cases hsc : p.2.scope = CommandScope.project
    · rw [if_pos (by simp [hsc])]
      exact ⟨p.2, lookupCmd_insertCmd_self m p.1 p.2, hsc⟩
    · rw [if_neg (by simp [hck, hsc])]
      exact ⟨c, hc, hscope⟩
  · by_cases hcond : (!containsKey m p.1 || decide (p.2.scope = CommandScope.project)) = true
    · rw [if_pos hcond]
      refine ⟨c, ?_, hscope⟩
      rw [lookupCmd_insertCmd_other m p.1 name p.2 (fun hh => hk hh.symm)]
      exact hc
    · rw [if_neg hcond]
      exact ⟨c, hc, hscope⟩

/-- Processing the pair `(name, c)` with `c` Project-scoped establishes the
invariant. -/
theorem mergeStep_establishes (m : List (Str × CustomCommand)) (name : Str)
    (c : CustomCommand) (hscope : c.scope = CommandScope.project) :
    boundToProject (mergeStep m (name, c)) name := by
  unfold mergeStep
  rw [if_pos (by simp [hscope])]
  exact ⟨c, lookupCmd_insertCmd_self m name c, hscope⟩

/-- The inner fold preserves the invariant. -/
theorem foldl_mergeStep_preserves (name : Str) :
    ∀ (l : List (Str × CustomCommand)) (m : List (Str × CustomCommand)),
      boundToProject m name → boundToProject (l.foldl mergeStep m) name := by
  intro l
  induction l with
  | nil => intro m h; exact h
  | cons p t ih =>
    intro m h
    exact ih (mergeStep m p) (mergeStep_preserves m name p h)

/-- The inner fold establishes the invariant as soon as the directory map
contains a Project-scoped entry for `name`. -/
theorem foldl_mergeStep_establishes (name : Str) (c : CustomCommand)
    (hscope : c.scope = CommandScope.project) :
    ∀ (l : List (Str × CustomCommand)) (m : List (Str × CustomCommand)),
      (name, c) ∈ l → boundToProject (l.foldl mergeStep m) name := by
  intro l
  induction l with
  | nil => intro m h; exact absurd h (List.not_mem_nil _)
  | cons p t ih =>
    intro m h
    rcases List.mem_cons.mp h with hh | hh
    · subst hh
      exact foldl_mergeStep_preserves name t _ (mergeStep_establishes m name c hscope)
    · exact ih (mergeStep m p) hh

/-- The outer fold preserves the invariant. -/
theorem outer_foldl_preserves (name : Str) :
    ∀ (rs : List (List (Str × CustomCommand))) (m : List (Str × CustomCommand)),
      boundToProject m name →
      boundToProject (rs.foldl (fun m d => d.foldl mergeStep m) m) name := by
  intro rs
  induction rs with
  | nil => intro m h; exact h
  | cons d t ih =>
    intro m h
    rw [List.foldl_cons]
    exact ih (d.foldl mergeStep m) (foldl_mergeStep_preserves name d m h)

/-- C9: whenever some walked root contributes a Project-scoped command for a
name, the merged map binds that name to a Project-scoped command, for every
order of the per-root results and of the entries within each root. -/
theorem C9_project_scope_wins (results : List (List (Str × CustomCommand)))
    (name : Str) (c : CustomCommand) (hscope : c.scope = CommandScope.project)
    (hmem : ∃ dir ∈ results, (name, c) ∈ dir) :
    ∃ c', lookupCmd (load_all_commands_merge results) name = some c' ∧
      c'.scope = CommandScope.project := by
  unfold load_all_commands_merge
  rcases hmem with ⟨dir, hdir, hentry⟩
  have main : ∀ (rs : List (List (Str × CustomCommand))) (m : List (Str × CustomCommand)),
      dir ∈ rs →
      boundToProject (rs.foldl (fun m d => d.foldl mergeStep m) m) name := by
    intro rs
    induction rs with
    | nil => intro m h; exact absurd h (List.not_mem_nil _)
    | cons d t ih =>
      intro m h
      rcases List.mem_cons.mp h with hh | hh
      · subst hh
        rw [List.foldl_cons]
        exact outer_foldl_preserves name t _
          (foldl_mergeStep_establishes name c hscope dir m hentry)
      · rw [List.foldl_cons]
        exact ih (d.foldl mergeStep m) hh
  exact main results [] hdir

/-- C9 witness: a Project-scope and a Global-scope root sharing the name
`deploy`; the merged entry is Project-scoped for both walk orders. -/
theorem C9_witness :
    (∃ c', lookupCmd (load_all_commands_merge
        [[(S "deploy",
            { name := S "deploy", content := S "P", frontmatter := Option.none,
              scope := CommandScope.project, file_path := S "p",
              namespc := Option.none })],
         [(S "deploy",
            { name := S "deploy", content := S "G", frontmatter := Option.none,
              scope := CommandScope.global, file_path := S "g",
              namespc := Option.none })]]) (S "deploy") = some c' ∧
      c'.scope = CommandScope.project) ∧
    (∃ c', lookupCmd (load_all_commands_merge
        [[(S "deploy",
            { name := S "deploy", content := S "G", frontmatter := Option.none,
              scope := CommandScope.global, file_path := S "g",
              namespc := Option.none })],
         [(S "deploy",
            { name := S "deploy", content := S "P", frontmatter := Option.none,
              scope := CommandScope.project, file_path := S "p",
              namespc := Option.none })]]) (S "deploy") = some c' ∧
      c'.scope = CommandScope.project) := by
  constructor
  · exact C9_project_scope_wins _ (S "deploy")
      { name := S "deploy", content := S "P", frontmatter := Option.none,
        scope := CommandScope.project, file_path := S "p", namespc := Option.none }
      rfl ⟨[(S "deploy",
        { name := S "deploy", content := S "P", frontmatter := Option.none,
          scope := CommandScope.project, file_path := S "p",
          namespc := Option.none })], by simp, by simp⟩
  · exact C9_project_scope_wins _ (S "deploy")
      { name := S "deploy", content := S "P", frontmatter := Option.none,
        scope := CommandScope.project, file_path := S "p", namespc := Option.none }
      rfl ⟨[(S "deploy",
        { name := S "deploy", content := S "P", frontmatter := Option.none,
          scope := CommandScope.project, file_path := S "p",
          namespc := Option.none })], by simp, by simp⟩

/-- `strip_suffix` success exposes the decomposition. -/
theorem stripSuffix_eq_some {s suf pre : Str} (h : stripSuffix s suf = some pre) :
    s = pre ++ suf := by
  unfold stripSuffix at h
  by_cases hs : suf.isSuffixOf s
  · rw [if_pos hs] at h
    rcases List.isSuffixOf_iff_suffix.mp hs with ⟨v, hv⟩
    have hlen : s.length - suf.length = v.length := by
      rw [← hv]; simp [List.length_append]
    have htake : s.take (s.length - suf.length) = v := by
      rw [hlen, ← hv, List.take_left]
    rw [htake] at h
    cases h
    exact hv.symm
  · rw [if_neg hs] at h
    cases h

/-- `strip_suffix` on an explicit decomposition. -/
theorem stripSuffix_append (pre suf : Str) : stripSuffix (pre ++ suf) suf = some pre := by
  unfold stripSuffix
  rw [if_pos (List.isSuffixOf_iff_suffix.mpr (List.suffix_append pre suf))]
  have hlen : (pre ++ suf).length - suf.length = pre.length := by
    simp [List.length_append]
  rw [hlen, List.take_left]

/-- A tool string that starts with `Bash(` and ends with `)` decomposes
around its inner text `(tool.drop 5).dropLast`. -/
theorem bashTool_decomp (t : Str) (h1 : startsWithB t (S "Bash(") = true)
    (h2 : endsWithB t (S ")") = true) :
    t = S "Bash(" ++ (t.drop 5).dropLast ++ [')'] := by
  rcases List.isPrefixOf_iff_prefix.mp h1 with ⟨u, hu⟩
  rcases List.isSuffixOf_iff_suffix.mp h2 with ⟨v, hv⟩
  rw [show (S ")") = [')'] from rfl] at hv
  have hdrop : t.drop 5 = u := by
    rw [← hu]
    exact List.drop_left (S "Bash(") u
  induction u using List.reverseRecOn with
  | nil =>
    exfalso
    rw [← hu] at hv
    simp only [List.append_nil] at hv
    have hlast := congrArg List.getLast? hv
    rw [List.getLast?_concat] at hlast
    exact absurd hlast (by decide)
  | append_singleton us a _ =>
    have ha : a = ')' := by
      have h₁ := congrArg List.getLast? hv
      rw [List.getLast?_concat] at h₁
      have h₂ := congrArg List.getLast? hu
      rw [List.getLast?_append_of_ne_nil _ (by simp), List.getLast?_concat] at h₂
      rw [← h₁] at h₂
      exact Option.some_inj.mp h₂
    subst ha
    rw [hdrop, List.dropLast_concat, ← hu, List.append_assoc]

/-- Inner texts are cancellable inside the `Bash(…)` wrapper. -/
theorem bashWrap_inj {a b : Str} (h : S "Bash(" ++ a ++ [')'] = S "Bash(" ++ b ++ [')']) :
    a = b := by
  rw [List.append_assoc, List.append_assoc] at h
  have h' := List.append_cancel_left h
  exact List.append_cancel_right h'

/-- A wrapped tool always passes the `starts_with`/`ends_with` test. -/
theorem bashWrap_tests (x : Str) :
    startsWithB (S "Bash(" ++ x ++ [')']) (S "Bash(") = true ∧
      endsWithB (S "Bash(" ++ x ++ [')']) (S ")") = true := by
  constructor
  · exact List.isPrefixOf_iff_prefix.mpr (by rw [List.append_assoc]; exact List.prefix_append _ _)
  · exact List.isSuffixOf_iff_suffix.mpr (by
      rw [show (S ")") = [')'] from rfl]
      exact List.suffix_append _ _)

/-- The per-permission check grants exactly the prefix and exact forms. -/
theorem permGrants_iff (cmd us : Str) :
    permGrants cmd us = true ↔
      ((∃ pre, us = pre ++ S ":*" ∧ pre <+: cmd) ∨ us = cmd) := by
  constructor
  · intro h
    unfold permGrants at h
    cases hs : stripSuffix us (S ":*") with
    | none => rw [hs] at h; exact Or.inr (by simpa using h)
    | some pre =>
      rw [hs] at h
      exact Or.inl ⟨pre, stripSuffix_eq_some hs, List.isPrefixOf_iff_prefix.mp h⟩
  · intro h
    unfold permGrants
    rcases h with ⟨pre, hus, hpre⟩ | hus
    · subst hus
      rw [stripSuffix_append]
      exact List.isPrefixOf_iff_prefix.mpr hpre
    · subst hus
      cases hs : stripSuffix us (S ":*") with
      | none => simp
      | some pre =>
        have hd := stripSuffix_eq_some hs
        show startsWithB us pre = true
        exact List.isPrefixOf_iff_prefix.mpr ⟨S ":*", hd.symm⟩

/-- Per-tool characterization: the permission extracted from one
`allowed-tools` entry grants the command exactly when the entry has one of
the amended grant forms. -/
theorem bashPermOf_grant_iff (t cmd : Str) :
    (∃ p, bashPermOf t = some p ∧ (p = S "*" ∨ permGrants cmd p = true)) ↔
      specBashGrant t cmd := by
  by_cases h1 : (startsWithB t (S "Bash(") && endsWithB t (S ")")) = true
  · have h1' : startsWithB t (S "Bash(") = true ∧ endsWithB t (S ")") = true := by
      simpa using h1
    rcases h1' with ⟨hpre, hsuf⟩
    have hdec := bashTool_decomp t hpre hsuf
    have hperm : bashPermOf t = some ((t.drop 5).dropLast) := by
      unfold bashPermOf
      rw [if_pos h1]
    set us := (t.drop 5).dropLast with hus
    constructor
    · rintro ⟨p, hp, hgrant⟩
      rw [hperm] at hp
      cases hp
      rcases hgrant with hstar | hmatch
      · exact Or.inr (Or.inl (by rw [hdec, hstar]; rfl))
      · rcases (permGrants_iff cmd us).mp hmatch with ⟨pre, hpre', hcmd⟩ | hexact
        · refine Or.inr (Or.inr (Or.inl ⟨pre, ?_, hcmd⟩))
          rw [hdec, hpre']
          simp only [List.append_assoc]
          rw [show (S ":*" ++ [')'] : Str) = S ":*)" from rfl]
        · exact Or.inr (Or.inr (Or.inr (by rw [hdec, hexact]; rfl)))
    · intro hg
      refine ⟨us, hperm, ?_⟩
      rcases hg with hbash | hstar | ⟨pre, hform, hcmd⟩ | hexact
      · exfalso
        rw [hdec] at hbash
        have hlen := congrArg List.length hbash
        simp only [List.length_append] at hlen
        rw [show List.length (S "Bash(") = 5 from rfl,
          show List.length (S "Bash") = 4 from rfl] at hlen
        omega
      · left
        apply bashWrap_inj
        rw [← hdec, hstar]
        rfl
      · right
        apply (permGrants_iff cmd us).mpr
        refine Or.inl ⟨pre, ?_, hcmd⟩
        apply bashWrap_inj
        rw [← hdec, hform]
        simp [List.append_assoc]
        rfl
      · right
        apply (permGrants_iff cmd us).mpr
        refine Or.inr ?_
        apply bashWrap_inj
        rw [← hdec, hexact]
        rfl
  · by_cases h2 : t = S "Bash"
    · have hperm : bashPermOf t = some (S "*") := by
        unfold bashPermOf
        rw [if_neg h1, if_pos h2]
      constructor
      · intro _; exact Or.inl h2
      · intro _; exact ⟨S "*", hperm, Or.inl rfl⟩
    · have hperm : bashPermOf t = Option.none := by
        unfold bashPermOf
        rw [if_neg h1, if_neg h2]
      constructor
      · rintro ⟨p, hp, _⟩
        rw [hperm] at hp
        cases hp
      · intro hg
        exfalso
        rcases hg with hbash | hstar | ⟨pre, hform, _⟩ | hexact
        · exact h2 hbash
        · rw [hstar] at h1; exact h1 (by decide)
        · rw [hform] at h1
          have := bashWrap_tests (pre ++ S ":*")
          rw [show S "Bash(" ++ pre ++ S ":*)" = S "Bash(" ++ (pre ++ S ":*") ++ [')'] from by
            simp [List.append_assoc]; rfl] at h1
          exact h1 (by rw [this.1, this.2]; rfl)
        · rw [hexact] at h1
          have := bashWrap_tests cmd
          rw [show S "Bash(" ++ cmd ++ S ")" = S "Bash(" ++ cmd ++ [')'] from rfl] at h1
          exact h1 (by rw [this.1, this.2]; rfl)

/-- `validate_bash_permissions` grants exactly when some `allowed-tools`
entry has one of the amended grant forms. -/
theorem validate_bash_permissions_iff (cmd : Str) (tools : List Str) :
    validate_bash_permissions cmd tools = true ↔
      ∃ tool ∈ tools, specBashGrant tool cmd := by
  unfold validate_bash_permissions
  set perms := tools.filterMap bashPermOf with hperms
  constructor
  · intro h
    by_cases hE : perms.isEmpty
    · rw [if_pos hE] at h
      cases h
    · rw [if_neg hE] at h
      by_cases hC : perms.contains (S "*")
      · have hmem : (S "*") ∈ perms := by
          simpa [List.elem_iff] using hC
        rcases List.mem_filterMap.mp (hperms ▸ hmem) with ⟨tool, htool, hsome⟩
        exact ⟨tool, htool, (bashPermOf_grant_iff tool cmd).mp ⟨S "*", hsome, Or.inl rfl⟩⟩
      · rw [if_neg hC] at h
        rcases List.any_eq_true.mp h with ⟨p, hp, hgrant⟩
        rcases List.mem_filterMap.mp (hperms ▸ hp) with ⟨tool, htool, hsome⟩
        exact ⟨tool, htool, (bashPermOf_grant_iff tool cmd).mp ⟨p, hsome, Or.inr hgrant⟩⟩
  · rintro ⟨tool, htool, hg⟩
    rcases (bashPermOf_grant_iff tool cmd).mpr hg with ⟨p, hsome, hp⟩
    have hmem : p ∈ perms := hperms ▸ List.mem_filterMap.mpr ⟨tool, htool, hsome⟩
    have hE : perms.isEmpty = false := by
      rcases perms with _ | _
      · exact absurd hmem (List.not_mem_nil p)
      · rfl
    rw [if_neg (by rw [hE]; exact Bool.false_ne_true)]
    by_cases hC : perms.contains (S "*")
    · rw [if_pos hC]
    · rw [if_neg hC]
      rcases hp with hstar | hgrant
      · exfalso
        subst hstar
        exact hC (by simpa [List.elem_iff] using hmem)
      · exact List.any_eq_true.mpr ⟨p, hmem, hgrant⟩

/-- A risk-free snippet runs: `run_bash_command` returns the spawned
output. -/
theorem run_bash_command_ok (ex : CustomCommandExecutor) (spawn : Str → Str) (cmd : Str)
    (h : check_security_risks cmd = []) :
    run_bash_command ex spawn cmd = Except.ok (spawn cmd) := by
  unfold run_bash_command
  rw [if_neg]
  rw [h]
  simp

/-- Every error `run_bash_command` produces is a bash-execution error. -/
theorem run_bash_command_error_shape (ex : CustomCommandExecutor) (spawn : Str → Str)
    (cmd : Str) (e : CCError) (h : run_bash_command ex spawn cmd = Except.error e) :
    ∃ msg, e = CCError.bashExecutionError msg := by
  unfold run_bash_command at h
  by_cases hc : (!(check_security_risks cmd).isEmpty && ex.security_mode = .strict)
  · rw [if_pos hc] at h
    cases h
    exact ⟨_, rfl⟩
  · rw [if_neg hc] at h
    cases h

/-- When every snippet is granted (or no permission list is present) and
risk-free, the loop inlines all outputs. -/
theorem bashLoop_ok (ex : CustomCommandExecutor) (spawn : Str → Str) (tools : List Str) :
    ∀ (cmds : List Str) (res : Str),
      (∀ cmd ∈ cmds,
        (tools.isEmpty || validate_bash_permissions cmd tools) = true ∧
          check_security_risks cmd = []) →
      bashLoop ex spawn tools cmds res =
        Except.ok (cmds.foldl (fun r c => strReplace r (bashMarker c) (spawn c)) res) := by
  intro cmds
  induction cmds with
  | nil => intro res _; rfl
  | cons cmd rest ih =>
    intro res h
    rcases h cmd (List.mem_cons_self _ _) with ⟨hgrant, hsafe⟩
    show (if (!tools.isEmpty && !validate_bash_permissions cmd tools) = true then _ else _) = _
    rw [if_neg (by
      rcases Bool.or_eq_true_iff.mp hgrant with hE | hV
      · rw [hE]; simp
      · rw [hV]; simp)]
    rw [run_bash_command_ok ex spawn cmd hsafe]
    rw [List.foldl_cons]
    exact ih _ (fun c hc => h c (List.mem_cons_of_mem _ hc))

/-- If some snippet in the list is denied by a non-empty permission list,
the loop fails with a bash-execution error. -/
theorem bashLoop_err_of_ungranted (ex : CustomCommandExecutor) (spawn : Str → Str)
    (tools : List Str) (hne : tools ≠ []) :
    ∀ (cmds : List Str) (res : Str),
      (∃ cmd ∈ cmds, validate_bash_permissions cmd tools = false) →
      ∃ msg, bashLoop ex spawn tools cmds res =
        Except.error (CCError.bashExecutionError msg) := by
  intro cmds
  induction cmds with
  | nil =>
    intro res h
    rcases h with ⟨cmd, hmem, _⟩
    exact absurd hmem (List.not_mem_nil cmd)
  | cons cmd rest ih =>
    intro res h
    by_cases hgate : (!tools.isEmpty && !validate_bash_permissions cmd tools) = true
    · refine ⟨S "Bash command '" ++ cmd ++ S "' not permitted by allowed-tools", ?_⟩
      show (if (!tools.isEmpty && !validate_bash_permissions cmd tools) = true
          then _ else _) = _
      rw [if_pos hgate]
    · have hval : validate_bash_permissions cmd tools = true := by
        have hE : tools.isEmpty = false := by
          rcases tools with _ | _
          · exact absurd rfl hne
          · rfl
        rcases Bool.eq_false_or_eq_true (validate_bash_permissions cmd tools) with hv | hv
        · exact hv
        · exfalso; exact hgate (by rw [hE, hv]; rfl)
      have hmem : ∃ c ∈ rest, validate_bash_permissions c tools = false := by
        rcases h with ⟨c, hc, hcv⟩
        rcases List.mem_cons.mp hc with rfl | hcr
        · rw [hval] at hcv; cases hcv
        · exact ⟨c, hcr, hcv⟩
      show (∃ msg, (if (!tools.isEmpty && !validate_bash_permissions cmd tools) = true
          then _ else _) = _)
      rw [if_neg hgate]
      cases hrun : run_bash_command ex spawn cmd with
      | error e =>
        rcases run_bash_command_error_shape ex spawn cmd e hrun with ⟨msg, rfl⟩
        exact ⟨msg, rfl⟩
      | ok output => exact ih _ hmem

/-- In strict mode, if some snippet in the list has detected risks, the
loop fails with a bash-execution error. -/
theorem bashLoop_err_of_dangerous (ex : CustomCommandExecutor) (spawn : Str → Str)
    (tools : List Str) (hmode : ex.security_mode = .strict) :
    ∀ (cmds : List Str) (res : Str),
      (∃ cmd ∈ cmds, check_security_risks cmd ≠ []) →
      ∃ msg, bashLoop ex spawn tools cmds res =
        Except.error (CCError.bashExecutionError msg) := by
  intro cmds
  induction cmds with
  | nil =>
    intro res h
    rcases h with ⟨cmd, hmem, _⟩
    exact absurd hmem (List.not_mem_nil cmd)
  | cons cmd rest ih =>
    intro res h
    by_cases hgate : (!tools.isEmpty && !validate_bash_permissions cmd tools) = true
    · refine ⟨S "Bash command '" ++ cmd ++ S "' not permitted by allowed-tools", ?_⟩
      show (if (!tools.isEmpty && !validate_bash_permissions cmd tools) = true
          then _ else _) = _
      rw [if_pos hgate]
    · show (∃ msg, (if (!tools.isEmpty && !validate_bash_permissions cmd tools) = true
          then _ else _) = _)
      rw [if_neg hgate]
      by_cases hr : check_security_risks cmd = []
      · rw [run_bash_command_ok ex spawn cmd hr]
        refine ih _ ?_
        rcases h with ⟨c, hc, hcr⟩
        rcases List.mem_cons.mp hc with rfl | hcr'
        · exact absurd hr hcr
        · exact ⟨c, hcr', hcr⟩
      · refine ⟨S "Dangerous command rejected: " ++ cmd, ?_⟩
        unfold run_bash_command
        rw [if_pos (by
          rw [hmode]
          have : (check_security_risks cmd).isEmpty = false := by
            rcases hh : check_security_risks cmd with _ | _
            · exact absurd hh hr
            · rfl
          rw [this]
          simp)]

/-- C3 (amended): with a non-empty permission list, a snippet denied by
every entry (in the amended grant forms, which include the grant-all entry
`Bash(*)`) makes inlining fail with a bash-execution error; with all
snippets granted — or with no permission list at all — every snippet is
executed and inlined (stated for risk-free snippets so that
`run_bash_command`'s own strict-mode check, claim C10, does not interfere). -/
theorem C3_bash_permission_only_if_granted (ex : CustomCommandExecutor)
    (spawn : Str → Str) (content : Str) (tools : List Str) :
    (tools ≠ [] →
      (∃ cmd ∈ extract_bash_commands content,
        ¬ ∃ tool ∈ tools, specBashGrant tool cmd) →
      ∃ msg, execute_bash_commands_with_permissions ex spawn content tools =
        Except.error (CCError.bashExecutionError msg)) ∧
    ((∀ cmd ∈ extract_bash_commands content, check_security_risks cmd = []) →
      ((∀ cmd ∈ extract_bash_commands content, ∃ tool ∈ tools, specBashGrant tool cmd) →
        execute_bash_commands_with_permissions ex spawn content tools =
          Except.ok (inlineAll spawn content)) ∧
      execute_bash_commands_with_permissions ex spawn content [] =
        Except.ok (inlineAll spawn content)) := by
  by_cases hcmds : (extract_bash_commands content).isEmpty
  · have hnil : extract_bash_commands content = [] := by
      rcases hh : extract_bash_commands content with _ | _
      · rfl
      · rw [hh] at hcmds; cases hcmds
    constructor
    · intro _ habs
      rcases habs with ⟨cmd, hmem, _⟩
      rw [hnil] at hmem
      exact absurd hmem (List.not_mem_nil cmd)
    · intro _
      constructor
      · intro _
        unfold execute_bash_commands_with_permissions
        rw [if_pos hcmds]
        unfold inlineAll
        rw [hnil]
        rfl
      · unfold execute_bash_commands_with_permissions
        rw [if_pos hcmds]
        unfold inlineAll
        rw [hnil]
        rfl
  · constructor
    · intro hne hdenied
      unfold execute_bash_commands_with_permissions
      rw [if_neg hcmds]
      apply bashLoop_err_of_ungranted ex spawn tools hne
      rcases hdenied with ⟨cmd, hmem, hno⟩
      refine ⟨cmd, hmem, ?_⟩
      rcases Bool.eq_false_or_eq_true (validate_bash_permissions cmd tools) with hv | hv
      · exact absurd ((validate_bash_permissions_iff cmd tools).mp hv) hno
      · exact hv
    · intro hsafe
      constructor
      · intro hgranted
        unfold execute_bash_commands_with_permissions
        rw [if_neg hcmds]
        unfold inlineAll
        apply bashLoop_ok
        intro cmd hmem
        refine ⟨?_, hsafe cmd hmem⟩
        rw [(validate_bash_permissions_iff cmd tools).mpr (hgranted cmd hmem)]
        simp
      · unfold execute_bash_commands_with_permissions
        rw [if_neg hcmds]
        unfold inlineAll
        apply bashLoop_ok
        intro cmd hmem
        exact ⟨by simp, hsafe cmd hmem⟩

/-- C3 counterexample: the entry `Bash(*)` is none of the claim's three
grant forms, yet the code treats it as grant-all: the snippet `ls` is
executed and inlined. -/
theorem C3_counterexample :
    validate_bash_permissions (S "ls") [S "Bash(*)"] = true ∧
    execute_bash_commands_with_permissions
        { bash_timeout_ms := 30000, security_mode := SecurityMode.strict }
        (fun _ => S "out") (S "Run !`ls` now") [S "Bash(*)"] =
      Except.ok (S "Run out now") ∧
    ¬ claimBashGrant (S "Bash(*)") (S "ls") := by
  refine ⟨by decide, by rfl, ?_⟩
  rintro (hbash | ⟨pre, hform, _⟩ | hexact)
  · exact absurd hbash (by decide)
  · have hlen := congrArg List.length hform
    simp only [List.length_append] at hlen
    rw [show List.length (S "Bash(*)") = 7 from rfl,
      show List.length (S "Bash(") = 5 from rfl,
      show List.length (S ":*)") = 3 from rfl] at hlen
    omega
  · exact absurd hexact (by decide)

/-- C3 witness: a granted prefix entry lets the snippet run and be inlined;
a non-empty list granting nothing makes expansion fail. -/
theorem C3_witness :
    execute_bash_commands_with_permissions
        { bash_timeout_ms := 30000, security_mode := SecurityMode.strict }
        (fun _ => S "done") (S "Run !`git add .` now") [S "Bash(git add:*)"] =
      Except.ok (inlineAll (fun _ => S "done") (S "Run !`git add .` now")) ∧
    (∃ msg, execute_bash_commands_with_permissions
        { bash_timeout_ms := 30000, security_mode := SecurityMode.strict }
        (fun _ => S "done") (S "Run !`git add .` now") [S "fs_read"] =
      Except.error (CCError.bashExecutionError msg)) := by
  constructor
  · refine ((C3_bash_permission_only_if_granted _ _ _ _).2 ?_).1 ?_
    · intro cmd hmem
      have : cmd = S "git add ." := by
        have hx : extract_bash_commands (S "Run !`git add .` now") = [S "git add ."] := by
          decide
        rw [hx] at hmem
        simpa using hmem
      rw [this]
      decide
    · intro cmd hmem
      have hx : extract_bash_commands (S "Run !`git add .` now") = [S "git add ."] := by
        decide
      rw [hx] at hmem
      have hc : cmd = S "git add ." := by simpa using hmem
      refine ⟨S "Bash(git add:*)", by simp, ?_⟩
      refine Or.inr (Or.inr (Or.inl ⟨S "git add", by decide, ?_⟩))
      rw [hc]
      exact ⟨S " .", by decide⟩
  · refine (C3_bash_permission_only_if_granted _ _ _ _).1 (by simp) ?_
    refine ⟨S "git add .", by decide, ?_⟩
    rintro ⟨tool, htool, hg⟩
    have ht : tool = S "fs_read" := by simpa using htool
    subst ht
    rcases hg with h | h | ⟨pre, hform, _⟩ | h
    · exact absurd h (by decide)
    · exact absurd h (by decide)
    · have hlen := congrArg List.length hform
      simp only [List.length_append] at hlen
      rw [show List.length (S "fs_read") = 7 from rfl,
        show List.length (S "Bash(") = 5 from rfl,
        show List.length (S ":*)") = 3 from rfl] at hlen
      omega
    · have hlen := congrArg List.length h
      simp only [List.length_append] at hlen
      rw [show List.length (S "fs_read") = 7 from rfl,
        show List.length (S "Bash(") = 5 from rfl,
        show List.length (S ")") = 1 from rfl,
        show List.length (S "git add .") = 9 from rfl] at hlen
      omega

/-- A text matching some denylist pattern has non-empty
`check_security_risks`. -/
theorem check_security_risks_ne_nil_of_match (content : Str)
    (h : DANGEROUS_PATTERNS.any (fun p => regexSearch p.2 content) = true) :
    check_security_risks content ≠ [] := by
  rw [check_security_risks_char]
  rcases List.any_eq_true.mp h with ⟨p, hp, hsearch⟩
  have hmem : p ∈ DANGEROUS_PATTERNS.filter (fun p => regexSearch p.2 content) :=
    List.mem_filter.mpr ⟨hp, hsearch⟩
  intro hc
  rcases List.append_eq_nil.mp hc with ⟨h1, _⟩
  rw [List.map_eq_nil_iff] at h1
  rw [h1] at hmem
  exact List.not_mem_nil p hmem

/-- C10: with the executor in its default strict mode, whenever the
substituted body contains an inline snippet matching a denylist pattern,
`execute_with_security` fails — for every `SecurityValidationConfig`, every
subprocess oracle and every filesystem oracle; and whenever the
configuration lets the body through step 1 (e.g. level `Off`, or exemptions
covering the pattern), the failure is precisely a bash-execution error,
raised without consulting the subprocess output for that snippet. -/
theorem C10_strict_mode_rejects_dangerous_snippets (t : Nat) (spawn : Str → Str)
    (fs : Str → Except CCError Str) (command : CustomCommand) (args : List Str)
    (config : SecurityValidationConfig)
    (hdanger : ∃ cmd ∈ extract_bash_commands (substitute_arguments command.content args),
      DANGEROUS_PATTERNS.any (fun p => regexSearch p.2 cmd) = true) :
    (∃ e, execute_with_security { bash_timeout_ms := t, security_mode := .strict }
        spawn fs command args config = Except.error e) ∧
    ((validate_security_with_config command.content config).should_error = false →
      ∃ msg, execute_with_security { bash_timeout_ms := t, security_mode := .strict }
        spawn fs command args config =
        Except.error (CCError.bashExecutionError msg)) := by
  set ex : CustomCommandExecutor := { bash_timeout_ms := t, security_mode := .strict }
  have hbash : ∃ msg,
      execute_bash_commands_with_permissions ex spawn
        (substitute_arguments command.content args) (commandAllowedTools command) =
        Except.error (CCError.bashExecutionError msg) := by
    rcases hdanger with ⟨cmd, hmem, hmatch⟩
    have hcmds : (extract_bash_commands (substitute_arguments command.content args)).isEmpty
        = false := by
      rcases hh : extract_bash_commands (substitute_arguments command.content args)
        with _ | _
      · rw [hh] at hmem; exact absurd hmem (List.not_mem_nil cmd)
      · rfl
    unfold execute_bash_commands_with_permissions
    rw [if_neg (by rw [hcmds]; exact Bool.false_ne_true)]
    exact bashLoop_err_of_dangerous ex spawn (commandAllowedTools command) rfl _ _
      ⟨cmd, hmem, check_security_risks_ne_nil_of_match cmd hmatch⟩
  by_cases hstep1 : (validate_security_with_config command.content config).should_error
  · constructor
    · refine ⟨CCError.securityError (S "content_validation")
        (S "Security risks detected: " ++
          List.intercalate (S ", ")
            (validate_security_with_config command.content config).risks), ?_⟩
      unfold execute_with_security security_check_with_config validate_content_with_config
      rw [if_pos hstep1]
    · intro hcontra
      rw [hstep1] at hcontra
      cases hcontra
  · have hstep1' : (validate_security_with_config command.content config).should_error
        = false := by
      rcases Bool.eq_false_or_eq_true
        ((validate_security_with_config command.content config).should_error) with hv | hv
      · exact absurd hv hstep1
      · exact hv
    rcases hbash with ⟨msg, hmsg⟩
    have hrun : execute_with_security ex spawn fs command args config =
        Except.error (CCError.bashExecutionError msg) := by
      unfold execute_with_security security_check_with_config validate_content_with_config
      rw [if_neg (by rw [hstep1']; exact Bool.false_ne_true)]
      simp only [hmsg]
    exact ⟨⟨_, hrun⟩, fun _ => ⟨msg, hrun⟩⟩

/-- C10 witness: body `"Run !`rm -rf /` now"`, configuration level `Off`
with `rm -rf` even exempted; the expansion still fails with a
bash-execution error before any subprocess output is used. -/
theorem C10_witness :
    ∃ msg, execute_with_security
        { bash_timeout_ms := 30000, security_mode := .strict }
        (fun _ => S "SHOULD NOT RUN") (fun _ => Except.ok (S "file"))
        { name := S "danger", content := S "Run !`rm -rf /` now",
          frontmatter := Option.none, scope := CommandScope.project,
          file_path := S "danger.md", namespc := Option.none }
        [] { level := .none, ignored_patterns := [S "rm -rf"] } =
      Except.error (CCError.bashExecutionError msg) := by
  refine (C10_strict_mode_rejects_dangerous_snippets 30000 _ _ _ _ _ ?_).2 ?_
  · exact ⟨S "rm -rf /", by decide, by decide⟩
  · decide

/-- C4: an unsafe file reference — absolute or containing a
parent-directory segment — at the head of the references of the processed
body makes `execute_with_security` fail with a `SecurityError`, for every
policy level (including `Off`), every exemption list, every executor mode
and every filesystem oracle. -/
theorem C4_unsafe_file_reference_fails (ex : CustomCommandExecutor) (spawn : Str → Str)
    (fs : Str → Except CCError Str) (command : CustomCommand) (args : List Str)
    (config : SecurityValidationConfig) (ref : Str) (rest : List Str)
    (hnobash : extract_bash_commands (substitute_arguments command.content args) = [])
    (hrefs : extract_file_references (substitute_arguments command.content args) =
      ref :: rest)
    (hpath : (containsSubstr ref (S "..") || startsWithB ref (S "/")) = true) :
    ∃ who msg, execute_with_security ex spawn fs command args config =
      Except.error (CCError.securityError who msg) := by
  by_cases hstep1 : (validate_security_with_config command.content config).should_error
  · refine ⟨S "content_validation",
      S "Security risks detected: " ++ List.intercalate (S ", ")
        (validate_security_with_config command.content config).risks, ?_⟩
    unfold execute_with_security security_check_with_config validate_content_with_config
    rw [if_pos hstep1]
  · have hstep1' : (validate_security_with_config command.content config).should_error
        = false := by
      rcases Bool.eq_false_or_eq_true
        ((validate_security_with_config command.content config).should_error) with hv | hv
      · exact absurd hv hstep1
      · exact hv
    have hbash : execute_bash_commands_with_permissions ex spawn
        (substitute_arguments command.content args) (commandAllowedTools command) =
        Except.ok (substitute_arguments command.content args) := by
      unfold execute_bash_commands_with_permissions
      rw [if_pos (by rw [hnobash]; rfl)]
    have hfile : resolve_file_references fs (substitute_arguments command.content args) =
        Except.error (CCError.securityError (S "file_reference")
          (S "Unsafe file reference: " ++ ref)) := by
      unfold resolve_file_references
      rw [if_neg (by rw [hrefs]; simp)]
      rw [hrefs]
      show (match read_file_reference fs ref with
        | Except.error e => Except.error e
        | Except.ok fileContent => fileLoop fs rest
            (strReplace (substitute_arguments command.content args) ('@' :: ref)
              (S "```\n" ++ fileContent ++ S "\n```"))) = _
      unfold read_file_reference
      rw [if_pos hpath]
    refine ⟨S "file_reference", S "Unsafe file reference: " ++ ref, ?_⟩
    unfold execute_with_security security_check_with_config validate_content_with_config
    rw [if_neg (by rw [hstep1']; exact Bool.false_ne_true)]
    simp only [hbash, hfile]

/-- C4 witness: a body referencing `@../secret.txt` fails with a
`SecurityError` under policy level `Off` and a permissive executor. -/
theorem C4_witness :
    ∃ who msg, execute_with_security
        { bash_timeout_ms := 30000, security_mode := .permissive }
        (fun _ => S "") (fun _ => Except.ok (S "secret contents"))
        { name := S "leak", content := S "See @../secret.txt",
          frontmatter := Option.none, scope := CommandScope.global,
          file_path := S "leak.md", namespc := Option.none }
        [] { level := .none, ignored_patterns := [] } =
      Except.error (CCError.securityError who msg) := by
  exact C4_unsafe_file_reference_fails _ _ _ _ _ _ (S "../secret.txt") []
    (by decide) (by decide) (by decide)

/-! ### Frontmatter-matcher lemmas (claim C8) -/

/-- Dropping while a predicate holds skips a block that satisfies it. -/
theorem dropWhile_append_of_all {p : Char → Bool} :
    ∀ (w t : Str), (∀ x ∈ w, p x = true) → (w ++ t).dropWhile p = t.dropWhile p := by
  intro w
  induction w with
  | nil => intro t _; rfl
  | cons c w' ih =>
    intro t h
    rw [List.cons_append, List.dropWhile_cons, if_pos (h c (List.mem_cons_self _ _))]
    exact ih t (fun x hx => h x (List.mem_cons_of_mem _ hx))

/-- Trimming ignores an all-whitespace prefix. -/
theorem trimF_after_ws (w t : Str) (h : ∀ x ∈ w, wsB x = true) :
    trimF (w ++ t) = trimF t := by
  unfold trimF
  rw [dropWhile_append_of_all w t h]

/-- A string whose head is not whitespace trims to something non-empty. -/
theorem trimF_cons_ne_nil (b : Char) (l : Str) (hb : wsB b = false) :
    trimF (b :: l) ≠ [] := by
  unfold trimF
  rw [List.dropWhile_cons, if_neg (by rw [hb]; exact Bool.false_ne_true)]
  intro hc
  rw [List.reverse_eq_nil_iff, List.dropWhile_eq_nil_iff] at hc
  have := hc b (by simp)
  rw [hb] at this
  cases this

/-- `lastNl` returns the position of a `'\n'` splitting the list. -/
theorem lastNl_spec : ∀ (w : Str) (k : Nat), lastNl w = some k →
    w.take k ++ '\n' :: w.drop (k + 1) = w := by
  intro w
  induction w with
  | nil => intro k h; cases h
  | cons c t ih =>
    intro k h
    unfold lastNl at h
    cases hl : lastNl t with
    | some k' =>
      rw [hl] at h
      cases h
      simp only [List.take_succ_cons, List.drop_succ_cons, List.cons_append, List.cons.injEq,
        true_and]
      exact ih k' hl
    | none =>
      rw [hl] at h
      by_cases hc : c == '\n'
      · rw [if_pos hc] at h
        cases h
        simp only [List.take_zero, List.drop_succ_cons, List.drop_zero, List.nil_append]
        rw [show c = '\n' from by simpa using hc]
      · rw [if_neg hc] at h
        cases h

/-- `lastNl` stays within the list. -/
theorem lastNl_lt : ∀ (w : Str) (k : Nat), lastNl w = some k → k < w.length := by
  intro w
  induction w with
  | nil => intro k h; cases h
  | cons c t ih =>
    intro k h
    unfold lastNl at h
    cases hl : lastNl t with
    | some k' =>
      rw [hl] at h
      cases h
      exact Nat.succ_lt_succ (ih k' hl)
    | none =>
      rw [hl] at h
      by_cases hc : c == '\n'
      · rw [if_pos hc] at h
        cases h
        exact Nat.succ_pos _
      · rw [if_neg hc] at h
        cases h

/-- A list starting with `'\n'` always has a last newline in its
whitespace run. -/
theorem lastNl_nl_cons (y : Str) : ∃ k, lastNl ('\n' :: y) = some k := by
  unfold lastNl
  cases hl : lastNl y with
  | some k' => exact ⟨k' + 1, rfl⟩
  | none => exact ⟨0, by simp⟩

/-- Success of `afterClose` exposes the whitespace run and the remainder. -/
theorem afterClose_sound (t g2 : Str) (h : afterClose t = some g2) :
    ∃ pre, (∀ x ∈ pre, wsB x = true) ∧ t = pre ++ '\n' :: g2 := by
  unfold afterClose at h
  cases hl : lastNl (t.takeWhile wsB) with
  | none => rw [hl] at h; cases h
  | some k =>
    rw [hl] at h
    cases h
    set w := t.takeWhile wsB with hw
    have hksplit := lastNl_spec w k hl
    have hklt := lastNl_lt w k hl
    have htw : w ++ t.dropWhile wsB = t := by
      rw [hw]
      exact List.takeWhile_append_dropWhile wsB t
    refine ⟨w.take k, ?_, ?_⟩
    · intro x hx
      exact List.mem_takeWhile_imp (List.take_subset k w hx)
    · have hdrop : t.drop (k + 1) = w.drop (k + 1) ++ t.dropWhile wsB := by
        conv_lhs => rw [← htw]
        rw [List.drop_append_of_le_length hklt]
      rw [hdrop, ← List.cons_append, ← List.append_assoc, hksplit, htw]

/-- Soundness of the closing-delimiter search: success exposes the
decomposition `g1 ++ "\n---" ++ w2 ++ "\n" ++ g2`. -/
theorem closeSearchF_sound :
    ∀ (fuel : Nat) (rem g1 g2 : Str), closeSearchF fuel rem = some (g1, g2) →
      ∃ w2, (∀ x ∈ w2, wsB x = true) ∧
        rem = g1 ++ S "\n---" ++ w2 ++ '\n' :: g2 := by
  intro fuel
  induction fuel with
  | zero => intro rem g1 g2 h; cases h
  | succ f ih =>
    intro rem g1 g2 h
    cases rem with
    | nil => cases h
    | cons c t =>
      show ∃ w2, _
      by_cases hpre : (S "\n---").isPrefixOf (c :: t) = true
      · rw [show closeSearchF (f + 1) (c :: t) =
            (if (S "\n---").isPrefixOf (c :: t) then
              match afterClose ((c :: t).drop 4) with
              | some g2 => some (([] : Str), g2)
              | Option.none =>
                match closeSearchF f t with
                | some (g1, g2) => some (c :: g1, g2)
                | Option.none => Option.none
            else
              match closeSearchF f t with
              | some (g1, g2) => some (c :: g1, g2)
              | Option.none => Option.none) from rfl, if_pos hpre] at h
        rcases List.isPrefixOf_iff_prefix.mp hpre with ⟨u, hu⟩
        have hdrop4 : (c :: t).drop 4 = u := by
          rw [← hu]
          exact List.drop_left (S "\n---") u
        cases hac : afterClose ((c :: t).drop 4) with
        | some g2' =>
          rw [hac] at h
          cases h
          rcases afterClose_sound _ _ hac with ⟨pre, hpw, hpeq⟩
          refine ⟨pre, hpw, ?_⟩
          rw [List.nil_append, ← hu, ← hdrop4, hpeq, List.append_assoc]
        | none =>
          rw [hac] at h
          cases hcs : closeSearchF f t with
          | none => rw [hcs] at h; cases h
          | some pr =>
            rcases pr with ⟨g1', g2'⟩
            rw [hcs] at h
            cases h
            rcases ih t _ _ hcs with ⟨w2, hw2, ht⟩
            exact ⟨w2, hw2, by rw [ht]; simp [List.append_assoc]⟩
      · rw [show closeSearchF (f + 1) (c :: t) =
            (if (S "\n---").isPrefixOf (c :: t) then
              match afterClose ((c :: t).drop 4) with
              | some g2 => some (([] : Str), g2)
              | Option.none =>
                match closeSearchF f t with
                | some (g1, g2) => some (c :: g1, g2)
                | Option.none => Option.none
            else
              match closeSearchF f t with
              | some (g1, g2) => some (c :: g1, g2)
              | Option.none => Option.none) from rfl, if_neg hpre] at h
        cases hcs : closeSearchF f t with
        | none => rw [hcs] at h; cases h
        | some pr =>
          rcases pr with ⟨g1', g2'⟩
          rw [hcs] at h
          cases h
          rcases ih t _ _ hcs with ⟨w2, hw2, ht⟩
          exact ⟨w2, hw2, by rw [ht]; simp [List.append_assoc]⟩

/-- `afterClose` always succeeds on input starting with a newline, and the
part it removes from the remainder is pure whitespace. -/
theorem afterClose_nl (rest : Str) :
    ∃ g2 q, (∀ x ∈ q, wsB x = true) ∧ rest = q ++ g2 ∧
      afterClose ('\n' :: rest) = some g2 := by
  rcases lastNl_nl_cons (List.takeWhile wsB rest) with ⟨k, hk⟩
  have hsome : afterClose ('\n' :: rest) = some (('\n' :: rest).drop (k + 1)) := by
    unfold afterClose
    rw [show List.takeWhile wsB ('\n' :: rest) = '\n' :: List.takeWhile wsB rest from by
      rw [List.takeWhile_cons, if_pos (by decide)], hk]
  rcases afterClose_sound _ _ hsome with ⟨pre, hpw, hpe⟩
  cases pre with
  | nil =>
    refine ⟨('\n' :: rest).drop (k + 1), [], by simp, ?_, hsome⟩
    rw [List.nil_append] at hpe
    exact (List.cons.injEq _ _ _ _ ▸ hpe).2
  | cons p0 pre' =>
    rw [List.cons_append] at hpe
    have h0 := (List.cons.injEq _ _ _ _ ▸ hpe).1
    have hrest := (List.cons.injEq _ _ _ _ ▸ hpe).2
    refine ⟨('\n' :: rest).drop (k + 1), pre' ++ ['\n'], ?_, ?_, hsome⟩
    · intro x hx
      rcases List.mem_append.mp hx with hx | hx
      · exact hpw x (List.mem_cons_of_mem _ hx)
      · rw [List.mem_singleton.mp hx]; decide
    · rw [List.append_assoc, List.singleton_append]
      exact hrest

/-- Running the closing-delimiter search on `block ++ "\n---\n" ++ rest`
with no closing delimiter inside `block` finds exactly `block` as the lazy
group. -/
theorem closeSearchF_junction :
    ∀ (block : Str) (fuel : Nat) (rest : Str), block.length + 1 ≤ fuel →
      containsSubstr block (S "\n---") = false →
      ∃ g2 q, (∀ x ∈ q, wsB x = true) ∧ rest = q ++ g2 ∧
        closeSearchF fuel (block ++ '\n' :: '-' :: '-' :: '-' :: '\n' :: rest) =
          some (block, g2) := by
  intro block
  induction block with
  | nil =>
    intro fuel rest hfuel _
    cases fuel with
    | zero => omega
    | succ f =>
      rcases afterClose_nl rest with ⟨g2, q, hq, hrest, hac⟩
      refine ⟨g2, q, hq, hrest, ?_⟩
      rw [List.nil_append]
      show (if (S "\n---").isPrefixOf ('\n' :: '-' :: '-' :: '-' :: '\n' :: rest) then
          match afterClose (('\n' :: '-' :: '-' :: '-' :: '\n' :: rest).drop 4) with
          | some g2 => some (([] : Str), g2)
          | Option.none =>
            match closeSearchF f ('-' :: '-' :: '-' :: '\n' :: rest) with
            | some (g1, g2) => some ('\n' :: g1, g2)
            | Option.none => Option.none
        else
          match closeSearchF f ('-' :: '-' :: '-' :: '\n' :: rest) with
          | some (g1, g2) => some ('\n' :: g1, g2)
          | Option.none => Option.none) = some (([] : Str), g2)
      rw [if_pos (by simp [List.isPrefixOf])]
      rw [show ('\n' :: '-' :: '-' :: '-' :: '\n' :: rest).drop 4 = '\n' :: rest from rfl,
        hac]
  | cons b bt ih =>
    intro fuel rest hfuel hcont
    cases fuel with
    | zero => omega
    | succ f =>
      have hcont' : containsSubstr bt (S "\n---") = false := by
        rw [containsSubstr_cons, Bool.or_eq_false_iff] at hcont
        exact hcont.2
      rcases ih f rest (by simpa using Nat.succ_le_succ_iff.mp hfuel) hcont' with
        ⟨g2, q, hq, hrest, hcs⟩
      refine ⟨g2, q, hq, hrest, ?_⟩
      have hpre : (S "\n---").isPrefixOf
          (b :: (bt ++ '\n' :: '-' :: '-' :: '-' :: '\n' :: rest)) = false := by
        rcases Bool.eq_false_or_eq_true ((S "\n---").isPrefixOf
          (b :: (bt ++ '\n' :: '-' :: '-' :: '-' :: '\n' :: rest))) with htrue | hfalse
        case inr => exact hfalse
        exfalso
        rw [show (S "\n---") = '\n' :: '-' :: '-' :: '-' :: ([] : Str) from rfl] at htrue
        rcases bt with _ | ⟨x, _ | ⟨y, _ | ⟨z, w'⟩⟩⟩
        · simp [List.isPrefixOf] at htrue
        · simp [List.isPrefixOf] at htrue
        · simp [List.isPrefixOf] at htrue
        · simp only [List.cons_append] at htrue
          simp [List.isPrefixOf] at htrue
          rw [containsSubstr_cons, Bool.or_eq_false_iff] at hcont
          have h1 := hcont.1
          rw [show (S "\n---") = '\n' :: '-' :: '-' :: '-' :: ([] : Str) from rfl] at h1
          simp [List.isPrefixOf] at h1
          exact h1 htrue.1 htrue.2.1 htrue.2.2.1 htrue.2.2.2
      show (if (S "\n---").isPrefixOf
            (b :: (bt ++ '\n' :: '-' :: '-' :: '-' :: '\n' :: rest)) then
          match afterClose ((b :: (bt ++ '\n' :: '-' :: '-' :: '-' :: '\n' :: rest)).drop 4)
            with
          | some g2 => some (([] : Str), g2)
          | Option.none =>
            match closeSearchF f (bt ++ '\n' :: '-' :: '-' :: '-' :: '\n' :: rest) with
            | some (g1, g2) => some (b :: g1, g2)
            | Option.none => Option.none
        else
          match closeSearchF f (bt ++ '\n' :: '-' :: '-' :: '-' :: '\n' :: rest) with
          | some (g1, g2) => some (b :: g1, g2)
          | Option.none => Option.none) = some (b :: bt, g2)
      rw [if_neg (by rw [hpre]; exact Bool.false_ne_true), hcs]

/-- `fmSplit` on a well-formed document: `---`, newline, a block with a
non-whitespace first character and no internal closing delimiter, `\n---\n`,
then the remainder; the match returns exactly the block and a tail of the
remainder that trims identically. -/
theorem fmSplit_wellFormed (b0 : Char) (bt rest : Str) (hb0 : wsB b0 = false)
    (hcont : containsSubstr (b0 :: bt) (S "\n---") = false) :
    ∃ g2, trimF g2 = trimF rest ∧
      fmSplit (S "---" ++ '\n' :: ((b0 :: bt) ++ '\n' :: '-' :: '-' :: '-' :: '\n' :: rest)) =
        some (b0 :: bt, g2) := by
  set r : Str := '\n' :: ((b0 :: bt) ++ '\n' :: '-' :: '-' :: '-' :: '\n' :: rest) with hr
  rcases closeSearchF_junction (b0 :: bt) ((b0 :: bt).length +
      ('\n' :: '-' :: '-' :: '-' :: '\n' :: rest).length + 1) rest (by omega) hcont with
    ⟨g2, q, hq, hrestq, hcs⟩
  have hcs' : closeSearch ((b0 :: bt) ++ '\n' :: '-' :: '-' :: '-' :: '\n' :: rest) =
      some (b0 :: bt, g2) := by
    unfold closeSearch
    rw [List.length_append]
    exact hcs
  refine ⟨g2, ?_, ?_⟩
  · rw [hrestq]
    exact (trimF_after_ws q g2 hq).symm
  · unfold fmSplit
    rw [if_pos (List.isPrefixOf_iff_prefix.mpr (List.prefix_append (S "---") r))]
    have hdrop : (S "---" ++ r).drop 3 = r := List.drop_left (S "---") r
    rw [hdrop]
    have hw : r.takeWhile wsB = ['\n'] := by
      rw [hr, List.takeWhile_cons, if_pos (by decide), List.cons_append,
        List.takeWhile_cons, if_neg (by rw [hb0]; exact Bool.false_ne_true)]
    have hcand : nlCandidates r = [0] := by
      unfold nlCandidates
      rw [hw]
      rfl
    rw [hcand]
    show (match closeSearch (r.drop 1) with
      | some res => some res
      | Option.none => tryOpens r []) = some (b0 :: bt, g2)
    rw [show r.drop 1 = (b0 :: bt) ++ '\n' :: '-' :: '-' :: '-' :: '\n' :: rest from by
      rw [hr]; rfl]
    rw [hcs']

/-- Soundness of the open-delimiter candidate search. -/
theorem tryOpens_sound (r : Str) :
    ∀ (js : List Nat) (g1 g2 : Str), tryOpens r js = some (g1, g2) →
      ∃ j ∈ js, closeSearch (r.drop (j + 1)) = some (g1, g2) := by
  intro js
  induction js with
  | nil => intro g1 g2 h; cases h
  | cons j rest ih =>
    intro g1 g2 h
    unfold tryOpens at h
    cases hc : closeSearch (r.drop (j + 1)) with
    | some res =>
      rw [hc] at h
      cases h
      exact ⟨j, List.mem_cons_self _ _, hc⟩
    | none =>
      rw [hc] at h
      rcases ih g1 g2 h with ⟨j', hj', hcs⟩
      exact ⟨j', List.mem_cons_of_mem _ hj', hcs⟩

/-- Members of `nlCandidates r` sit on a `'\n'` inside the leading
whitespace run of `r`. -/
theorem nlCandidates_mem (r : Str) (j : Nat) (hj : j ∈ nlCandidates r) :
    (∀ x ∈ r.take j, wsB x = true) ∧ r.take j ++ '\n' :: r.drop (j + 1) = r := by
  unfold nlCandidates at hj
  rw [List.mem_reverse, List.mem_filter, List.mem_range] at hj
  set w := r.takeWhile wsB with hw
  rcases hj with ⟨hjlt, hjnl⟩
  have htw : w ++ r.dropWhile wsB = r := by
    rw [hw]
    exact List.takeWhile_append_dropWhile wsB r
  have hjr : j < r.length := by
    have : w.length ≤ r.length := by
      conv_rhs => rw [← htw]
      rw [List.length_append]
      omega
    omega
  have htake : r.take j = w.take j := by
    conv_lhs => rw [← htw]
    rw [List.take_append_of_le_length (Nat.le_of_lt hjlt)]
  have hgd : w.getD j ' ' = '\n' := by simpa using hjnl
  have hwj : w[j]? = some '\n' := by
    rw [List.getElem?_eq_getElem hjlt]
    rw [List.getD_eq_getElem w ' ' hjlt] at hgd
    rw [hgd]
  have hrj : r[j]? = some '\n' := by
    conv_lhs => rw [← htw]
    rw [List.getElem?_append, if_pos hjlt]
    exact hwj
  constructor
  · intro x hx
    rw [htake] at hx
    exact List.mem_takeWhile_imp (hw ▸ List.take_subset j w hx)
  · have hsplit : r.drop j = '\n' :: r.drop (j + 1) := by
      rw [List.drop_eq_getElem_cons hjr]
      rw [List.getElem?_eq_getElem hjr] at hrj
      rw [Option.some_inj.mp hrj]
    conv_rhs => rw [← List.take_append_drop j r]
    rw [hsplit]

/-- A successful frontmatter match certifies a well-formed leading block. -/
theorem fmSplit_sound (c g1 g2 : Str) (h : fmSplit c = some (g1, g2)) :
    hasFrontmatterBlock c := by
  unfold fmSplit at h
  by_cases hpre : (S "---").isPrefixOf c = true
  · rw [if_pos hpre] at h
    rcases tryOpens_sound _ _ _ _ h with ⟨j, hj, hcs⟩
    rcases nlCandidates_mem (c.drop 3) j hj with ⟨hws, hsplit⟩
    unfold closeSearch at hcs
    rcases closeSearchF_sound _ _ _ _ hcs with ⟨w2, hw2, hrem⟩
    rcases List.isPrefixOf_iff_prefix.mp hpre with ⟨u, hu⟩
    have hdrop : c.drop 3 = u := by
      rw [← hu]
      exact List.drop_left (S "---") u
    refine ⟨(c.drop 3).take j, g1, w2, g2, hws, hw2, ?_⟩
    conv_lhs => rw [← hu, ← hdrop]
    conv_lhs => rw [← hsplit, hrem]
    simp [List.append_assoc]
  · rw [if_neg hpre] at h
    cases h

/-- C8: `MarkdownParser::parse` splits a document with a well-formed leading
delimited metadata block into the parsed block content and the trimmed
remainder; a document with no such block parses to `None` metadata with the
whole trimmed document as body.  YAML deserialization is an oracle
parameter. -/
theorem C8_markdown_parse_split (yaml : Str → Except Str CommandFrontmatter)
    (content : Str) :
    (∀ (b0 : Char) (bt rest : Str) (fm : CommandFrontmatter),
      trimF content =
        S "---" ++ '\n' :: ((b0 :: bt) ++ '\n' :: '-' :: '-' :: '-' :: '\n' :: rest) →
      wsB b0 = false →
      containsSubstr (b0 :: bt) (S "\n---") = false →
      yaml (b0 :: bt) = Except.ok fm →
      parseMarkdown yaml content =
        Except.ok { frontmatter := some fm, content := trimF rest,
                    raw_content := trimF content }) ∧
    (¬ hasFrontmatterBlock (trimF content) →
      parseMarkdown yaml content =
        Except.ok { frontmatter := Option.none, content := trimF content,
                    raw_content := trimF content }) := by
  constructor
  · intro b0 bt rest fm htrimc hb0 hcont hyaml
    rcases fmSplit_wellFormed b0 bt rest hb0 hcont with ⟨g2, htrim, hsplit⟩
    have hsplit' : fmSplit (trimF content) = some (b0 :: bt, g2) := by
      rw [htrimc]
      exact hsplit
    have hne : (trimF (b0 :: bt)).isEmpty = false := by
      rcases hh : trimF (b0 :: bt) with _ | _
      · exact absurd hh (trimF_cons_ne_nil b0 bt hb0)
      · rfl
    simp only [parseMarkdown, hsplit']
    rw [if_neg (by rw [hne]; exact Bool.false_ne_true)]
    simp only [hyaml, htrim]
  · intro hnoblock
    cases hsplit : fmSplit (trimF content) with
    | some pr =>
      exact absurd (fmSplit_sound _ pr.1 pr.2 (by rw [hsplit])) hnoblock
    | none =>
      simp only [parseMarkdown, hsplit]

/-- C8 witness: a document with a `description` block parses to its
metadata and trimmed body; a plain document parses to `None` metadata and
its own text. -/
theorem C8_witness :
    (parseMarkdown
        (fun s => if s = S "description: demo" then
            Except.ok { description := some (S "demo") }
          else Except.error (S "unexpected"))
        (S "---\ndescription: demo\n---\n\n# Title body") =
      Except.ok { frontmatter := some { description := some (S "demo") },
                  content := S "# Title body",
                  raw_content := S "---\ndescription: demo\n---\n\n# Title body" }) ∧
    (parseMarkdown
        (fun s => if s = S "description: demo" then
            Except.ok { description := some (S "demo") }
          else Except.error (S "unexpected"))
        (S "# Simple Command") =
      Except.ok { frontmatter := Option.none, content := S "# Simple Command",
                  raw_content := S "# Simple Command" }) := by
  constructor
  · have h := (C8_markdown_parse_split
      (fun s => if s = S "description: demo" then
          Except.ok { description := some (S "demo") }
        else Except.error (S "unexpected"))
      (S "---\ndescription: demo\n---\n\n# Title body")).1
      'd' (S "escription: demo") (S "\n# Title body")
      { description := some (S "demo") }
      (by decide) (by decide) (by decide) (by rfl)
    rw [show trimF (S "\n# Title body") = S "# Title body" from by decide,
      show trimF (S "---\ndescription: demo\n---\n\n# Title body") =
        S "---\ndescription: demo\n---\n\n# Title body" from by decide] at h
    exact h
  · have h := (C8_markdown_parse_split
      (fun s => if s = S "description: demo" then
          Except.ok { description := some (S "demo") }
        else Except.error (S "unexpected"))
      (S "# Simple Command")).2 ?_
    · rw [show trimF (S "# Simple Command") = S "# Simple Command" from by decide] at h
      exact h
    · rintro ⟨w, g1, w2, g2, _, _, heq⟩
      rw [show trimF (S "# Simple Command") = S "# Simple Command" from by decide] at heq
      simp only [List.append_assoc] at heq
      have h0 := congrArg (fun l => l.getD 0 ' ') heq
      rw [show (fun l : Str => l.getD 0 ' ') (S "# Simple Command") = '#' from rfl] at h0
      rw [show (fun l : Str => l.getD 0 ' ')
          (S "---" ++ (w ++ ('\n' :: g1 ++ (S "\n---" ++ (w2 ++ '\n' :: g2))))) =
          (S "---" ++ (w ++ ('\n' :: g1 ++ (S "\n---" ++ (w2 ++ '\n' :: g2))))).getD 0 ' '
        from rfl] at h0
      rw [List.getD_append _ _ _ _ (by decide)] at h0
      exact absurd h0 (by decide)
